import Mathlib

/-!
# Linux autofs support of am-utils (`conf/autofs/autofs_linux.c`)

A shallow embedding of the descriptor registry (`hash`, `list`, `numfds`), of the
pending-mount ledger of an autofs handle, of the packet reader, of the readiness
dispatcher and its packet dispatch, of the handle lifecycle (`autofs_get_fh`,
`autofs_mounted`, `autofs_release_fh`, `autofs_get_opts`) and of
`autofs_link_mount`, followed by theorems about them.

Conventions of the embedding:
* C `int` values are `Int`; pointers to `am_node` are `Nat` with `0` for `NULL`;
* a C array is a `List`; an access outside the allocated storage has no defined
  result and is `none`;
* calls that leave the program (`ioctl`, `close`, `open`, `rmdirs`, `lookup_child`,
  `mount_child`, `read`, `pipe`, the system calls of `autofs_link_mount`) are
  recorded in a trace or answered by an oracle passed as argument;
* `plog`/`dlog` calls only write to the log and are left out.
-/

namespace AutofsLinux

/-! ## C arrays -/

/-- Read `a[i]` of a C array; `none` outside the storage. -/
def aget {α : Type} (a : List α) (i : Int) : Option α :=
  if 0 ≤ i then a[i.toNat]? else none

/-- Write `a[i] = v` of a C array; `none` outside the storage. -/
def aset {α : Type} (a : List α) (i : Int) (v : α) : Option (List α) :=
  if 0 ≤ i ∧ i.toNat < a.length then some (a.set i.toNat v) else none

/-! ## Descriptor registry (lines 71-122) -/

/-- The static variables `autofs_max_fds`, `hash`, `list`, `numfds`. -/
structure Registry where
  autofs_max_fds : Int
  hash : List Nat
  list : List Int
  numfds : Int
deriving DecidableEq, Repr

/-- `hash_init`: `getrlimit` is `none` when the call fails and `some rlim_cur`
otherwise. `numfds` keeps its static initialiser `0`. -/
def hash_init (getrlimit : Option Nat) : Registry :=
  let autofs_max_fds : Nat :=
    match getrlimit with
    | none => 256
    | some rlim_cur => if rlim_cur > 1024 then 1024 else rlim_cur
  { autofs_max_fds := autofs_max_fds
    hash := List.replicate autofs_max_fds 0
    list := List.replicate autofs_max_fds (-1)
    numfds := 0 }

/-- `hash_insert(fd, mp)`. -/
def hash_insert (fd : Int) (mp : Nat) (r : Registry) : Option Registry := do
  let _ ← aget r.hash fd
  let hash ← aset r.hash fd mp
  let list ← aset r.list r.numfds fd
  some { r with hash := hash, list := list, numfds := r.numfds + 1 }

/-- The `for` loop of `hash_delete`, entered at index `i` with `k` iterations
left (`k = numfds - i`); `numfds` is the already decremented count. -/
def hash_delete_scan (fd : Int) (numfds : Int) : Nat → Nat → List Int → Option (List Int)
  | 0, _, list => some list
  | k + 1, i, list => do
    let x ← list[i]?
    if x = fd then
      let y ← aget list numfds
      some (list.set i y)
    else
      hash_delete_scan fd numfds k (i + 1) list

/-- `hash_delete(fd)`. -/
def hash_delete (fd : Int) (r : Registry) : Option Registry := do
  let _ ← aget r.hash fd
  let hash ← aset r.hash fd 0
  let numfds := r.numfds - 1
  let list ← hash_delete_scan fd numfds numfds.toNat 0 r.list
  some { r with hash := hash, list := list, numfds := numfds }

/-- The active list `list[0..numfds)`. -/
def active (r : Registry) : List Int :=
  r.list.take r.numfds.toNat

/-- Slot `hash[fd]` is non-empty. -/
def occupied (r : Registry) (fd : Int) : Prop :=
  (aget r.hash fd).getD 0 ≠ 0

instance (r : Registry) (fd : Int) : Decidable (occupied r fd) := by
  unfold occupied; infer_instance

/-- Slot `hash[fd]` exists and is empty. -/
def vacant (r : Registry) (fd : Int) : Prop :=
  aget r.hash fd = some 0

instance (r : Registry) (fd : Int) : Decidable (vacant r fd) := by
  unfold vacant; infer_instance

/-- Number of non-empty slots. -/
def slotsInUse (r : Registry) : Nat :=
  r.hash.countP (fun m => m != 0)

/-- One call on the registry. -/
inductive RegOp where
  | insert (fd : Int) (mp : Nat)
  | delete (fd : Int)
deriving DecidableEq, Repr

/-- Perform one call. -/
def RegOp.apply : RegOp → Registry → Option Registry
  | .insert fd mp, r => hash_insert fd mp r
  | .delete fd, r => hash_delete fd r

/-- Perform a sequence of calls, first to last. -/
def runOps : List RegOp → Registry → Option Registry
  | [], r => some r
  | op :: ops, r => (op.apply r).bind (runOps ops)

/-- The descriptor of a call is below the ceiling and an inserted node is not `NULL`. -/
def RegOp.inRange (max : Int) : RegOp → Prop
  | .insert fd mp => 0 ≤ fd ∧ fd < max ∧ mp ≠ 0
  | .delete fd => 0 ≤ fd ∧ fd < max

instance (max : Int) (op : RegOp) : Decidable (op.inRange max) := by
  cases op <;> unfold RegOp.inRange <;> infer_instance

/-- The call is one the callers of the registry make: an insert of a non-`NULL`
node into an empty slot, or a delete of an occupied slot. -/
def RegOp.expected : RegOp → Registry → Prop
  | .insert fd mp, r => mp ≠ 0 ∧ vacant r fd
  | .delete fd, r => occupied r fd

instance (op : RegOp) (r : Registry) : Decidable (op.expected r) := by
  cases op <;> unfold RegOp.expected <;> infer_instance

/-- Every call of the sequence is an expected one in the state it is applied to. -/
def disciplined : Registry → List RegOp → Bool
  | _, [] => true
  | r, op :: ops =>
    decide (op.expected r) &&
      (match op.apply r with
       | some r' => disciplined r' ops
       | none => true)

/-- States reached from `hash_init` by expected calls only. -/
inductive Reachable (getrlimit : Option Nat) : Registry → Prop where
  | init : Reachable getrlimit (hash_init getrlimit)
  | step {r r' : Registry} (op : RegOp) :
      Reachable getrlimit r → op.expected r → op.apply r = some r' → Reachable getrlimit r'

/-- Registry with ceiling 8 after `hash_insert(3, 1)`. -/
def regOne : Registry :=
  { autofs_max_fds := 8, hash := [0, 0, 0, 1, 0, 0, 0, 0],
    list := [3, -1, -1, -1, -1, -1, -1, -1], numfds := 1 }

/-- Registry with ceiling 8 after `hash_insert(3, 1)`, `hash_insert(5, 2)`. -/
def regTwo : Registry :=
  { autofs_max_fds := 8, hash := [0, 0, 0, 1, 0, 2, 0, 0],
    list := [3, 5, -1, -1, -1, -1, -1, -1], numfds := 2 }

/-- Registry with ceiling 8 after `hash_insert(3, 1)`, `hash_insert(3, 2)`,
`hash_delete(3)`. -/
def regPhantom : Registry :=
  { autofs_max_fds := 8, hash := [0, 0, 0, 0, 0, 0, 0, 0],
    list := [3, 3, -1, -1, -1, -1, -1, -1], numfds := 1 }

/-- Registry with ceiling 8 after `hash_insert(3, 1)`, `hash_delete(5)`. -/
def regLeak : Registry :=
  { autofs_max_fds := 8, hash := [0, 0, 0, 1, 0, 0, 0, 0],
    list := [3, -1, -1, -1, -1, -1, -1, -1], numfds := 0 }

/-! ## Autofs handle and pending-mount ledger -/

/-- `struct autofs_pending_mount`; the `next` links are the order of the list. -/
structure autofs_pending_mount where
  wait_queue_token : Nat
  name : String
deriving DecidableEq, Repr

/-- `autofs_fh_t`. -/
structure autofs_fh_t where
  fd : Int
  kernelfd : Int
  ioctlfd : Int
  version : Int
  pending : List autofs_pending_mount
deriving DecidableEq, Repr

/-- The fields of `struct autofs_packet_missing` the handler reads. -/
structure autofs_packet_missing where
  wait_queue_token : Nat
  name : String
deriving DecidableEq, Repr

/-- The fields of an `am_node` the mount callbacks read. -/
structure am_node where
  am_name : String
  am_path : String
deriving DecidableEq, Repr

/-- The control commands sent to the kernel. -/
inductive IoctlRequest where
  | AUTOFS_IOC_PROTOVER
  | AUTOFS_IOC_CATATONIC
  | AUTOFS_IOC_READY
  | AUTOFS_IOC_FAIL
deriving DecidableEq, Repr

/-- A call that leaves the file. `lookup_child` records the name, whether the
flag is `VLOOK_CREATE`, and the ledger of the handle reachable through its `mp`
argument at the moment of the call. `open_rdonly path` is `open(path, O_RDONLY)`. -/
inductive Event where
  | ioctl (fd : Int) (request : IoctlRequest) (arg : Nat)
  | lookup_child (name : String) (create : Bool) (pending : List autofs_pending_mount)
  | mount_child (ap : Nat)
  | rmdirs (path : String)
  | close (fd : Int)
  | open_rdonly (path : String)
deriving DecidableEq, Repr

/-- `INT_MAX` of a 32-bit `int`. -/
def INT_MAX : Int := 2147483647

/-- `INT_MIN` of a 32-bit `int`. -/
def INT_MIN : Int := -2147483648

/-- `x++` on a C `int`: the successor, and at `INT_MAX`, where C leaves the
overflow undefined, the two's-complement wrap to `INT_MIN` of the compiled code. -/
def int_incr (x : Int) : Int :=
  (x + 1 + 2147483648) % 4294967296 - 2147483648

/-- The state the packet handler and the mount callbacks of one handle work on:
the handle `mp->am_mnt->mf_autofs_fh`, the counters `amd_stats.d_drops` and
`mp->am_stats.s_lookup`, both C `int`s, and the calls made so far. -/
structure World where
  fh : autofs_fh_t
  d_drops : Int
  s_lookup : Int
  trace : List Event
deriving DecidableEq, Repr

/-- The node-tree operations `mf->mf_ops`, as oracles that do not call back:
each returns the node pointer (`0` for `NULL`) and the value it leaves in `error`. -/
structure mf_ops where
  lookup_child : String → Nat × Int
  mount_child : Nat → Nat × Int

/-- The scan `while (p && p->wait_queue_token != token) p = p->next`. -/
def find_token (token : Nat) : List autofs_pending_mount → Option autofs_pending_mount
  | [] => none
  | p :: rest => if p.wait_queue_token ≠ token then find_token token rest else some p

/-- The walk `while (*pp && !STREQ((*pp)->name, name)) pp = &(*pp)->next` followed
by the unlinking `*pp = p->next`: the entry found and the list without it, or
`none` when the walk reaches the end. -/
def unlink_name (name : String) :
    List autofs_pending_mount → Option (autofs_pending_mount × List autofs_pending_mount)
  | [] => none
  | p :: rest =>
    if p.name = name then some (p, rest)
    else (unlink_name name rest).map (fun q => (q.1, p :: q.2))

/-- `autofs_lookup_failed(mp, name)`. -/
def autofs_lookup_failed (name : String) (w : World) : World :=
  match unlink_name name w.fh.pending with
  | none => w
  | some (p, rest) =>
    { w with
      trace := w.trace ++ [Event.ioctl w.fh.ioctlfd .AUTOFS_IOC_FAIL p.wait_queue_token]
      fh := { w.fh with pending := rest } }

/-- Lines 293-295 of `autofs_handle_missing`: the values of `ap` and `error` after
`lookup_child` and, when it returned a node and a negative error, `mount_child`. -/
def missing_outcome (ops : mf_ops) (name : String) : Nat × Int :=
  let r := ops.lookup_child name
  if r.1 ≠ 0 ∧ r.2 < 0 then ops.mount_child r.1 else r

/-- `autofs_handle_missing(mp, pkt)`. -/
def autofs_handle_missing (ops : mf_ops) (pkt : autofs_packet_missing) (w : World) : World :=
  match find_token pkt.wait_queue_token w.fh.pending with
  | some _ => { w with d_drops := int_incr w.d_drops }
  | none =>
    let pending := { wait_queue_token := pkt.wait_queue_token, name := pkt.name } :: w.fh.pending
    let w1 : World := { w with fh := { w.fh with pending := pending } }
    let r := ops.lookup_child pkt.name
    let w2 : World :=
      { w1 with trace := w1.trace ++ [Event.lookup_child pkt.name true w1.fh.pending] }
    let w3 : World :=
      if r.1 ≠ 0 ∧ r.2 < 0 then { w2 with trace := w2.trace ++ [Event.mount_child r.1] }
      else w2
    let ap := (missing_outcome ops pkt.name).1
    let error := (missing_outcome ops pkt.name).2
    if ap = 0 then
      if error < 0 then w3
      else
        let w4 := autofs_lookup_failed pkt.name w3
        { w4 with s_lookup := int_incr w4.s_lookup }
    else { w3 with s_lookup := int_incr w3.s_lookup }

/-- `autofs_mount_succeeded(mp)`, on the handle of the parent of `mp`. -/
def autofs_mount_succeeded (mp : am_node) (w : World) : World :=
  match unlink_name mp.am_name w.fh.pending with
  | none => w
  | some (p, rest) =>
    { w with
      trace := w.trace ++ [Event.ioctl w.fh.ioctlfd .AUTOFS_IOC_READY p.wait_queue_token]
      fh := { w.fh with pending := rest } }

/-- `autofs_mount_failed(mp)`, on the handle of the parent of `mp`. -/
def autofs_mount_failed (mp : am_node) (w : World) : World :=
  match unlink_name mp.am_name w.fh.pending with
  | none => w
  | some (p, rest) =>
    { w with
      trace := w.trace ++ [Event.rmdirs mp.am_path,
        Event.ioctl w.fh.ioctlfd .AUTOFS_IOC_FAIL p.wait_queue_token]
      fh := { w.fh with pending := rest } }

/-- Missing packets handled one after the other, each with the answers the node
tree gives for it. -/
def handle_missing_seq (steps : List (mf_ops × autofs_packet_missing)) (w : World) : World :=
  steps.foldl (fun w s => autofs_handle_missing s.1 s.2 w) w

/-- The entry is resolved inline as failed: no node and a non-negative error. -/
def inline_failed (ops : mf_ops) (name : String) : Prop :=
  (missing_outcome ops name).1 = 0 ∧ 0 ≤ (missing_outcome ops name).2

instance (ops : mf_ops) (name : String) : Decidable (inline_failed ops name) := by
  unfold inline_failed; infer_instance

/-- A handle after `autofs_mounted`, with an empty ledger, and no call made yet. -/
def world0 : World :=
  { fh := { fd := 4, kernelfd := -1, ioctlfd := 6, version := 4, pending := [] }
    d_drops := 0, s_lookup := 0, trace := [] }

/-- The handle of `world0` with the entry `(3, "x")` pending, when `INT_MAX`
packets have been dropped. -/
def worldDropsMax : World :=
  { fh := { fd := 4, kernelfd := -1, ioctlfd := 6, version := 4, pending := [⟨3, "x"⟩] }
    d_drops := INT_MAX, s_lookup := 0, trace := [] }

/-- Node-tree answers: `lookup_child` returns no node and leaves `error = -1`
(mount in progress). -/
def opsInProgress : mf_ops :=
  { lookup_child := fun _ => (0, -1), mount_child := fun _ => (0, -1) }

/-- Node-tree answers: `lookup_child` returns no node and leaves `error = 2`. -/
def opsNoEntry : mf_ops :=
  { lookup_child := fun _ => (0, 2), mount_child := fun _ => (0, 2) }

/-! ## Packet reader (lines 210-226) -/

/-- The `do ... while (bytes)` loop of `autofs_get_pkt`. `read k n` is the result
of the `k`-th `read` on the descriptor when `n` bytes are requested. The result
is the value of `bytes` at the `return` and the list of (requested, result) of
the reads made; `none` when the loop is not finished after `fuel` iterations. -/
def autofs_get_pkt_loop (read : Nat → Int → Int) :
    Nat → Nat → Int → Option (Int × List (Int × Int))
  | 0, _, _ => none
  | fuel + 1, k, bytes =>
    let i := read k bytes
    if i ≤ 0 then some (bytes, [(bytes, i)])
    else if bytes - i ≠ 0 then
      (autofs_get_pkt_loop read fuel (k + 1) (bytes - i)).map
        (fun q => (q.1, (bytes, i) :: q.2))
    else some (bytes - i, [(bytes, i)])

/-- `autofs_get_pkt(fd, buf, bytes)`. -/
def autofs_get_pkt (read : Nat → Int → Int) (bytes : Int) (fuel : Nat) :
    Option (Int × List (Int × Int)) :=
  autofs_get_pkt_loop read fuel 0 bytes

/-- A `read` that delivers at most 5 bytes on the first call and nothing after. -/
def readFiveThenEof (k : Nat) (n : Int) : Int :=
  if k = 0 then min n 5 else min n 0

/-! ## Readiness dispatcher (lines 309-343) -/

/-- What `autofs_handle_fdset` leaves: the set, the returned count and the state
the servicing of the descriptors works on. -/
structure FdsetResult (σ : Type) where
  readfds : Finset Int
  nsel : Int
  state : σ
deriving DecidableEq

/-- The `for` loop of `autofs_handle_fdset`, entered at index `i` with `k`
iterations left (`k = numfds - i`). `service fd mp` is the body after
`mp = hash[list[i]]`: reading the packet of the handle of `mp` and handling it.
It does not change the registry. A `NULL` node has no handle to read from: the
result is `none`. -/
def autofs_handle_fdset_loop {σ : Type} (service : Int → Nat → σ → σ) (r : Registry) :
    Nat → Nat → Finset Int → Int → σ → Option (FdsetResult σ)
  | 0, _, readfds, nsel, s => some { readfds := readfds, nsel := nsel, state := s }
  | k + 1, i, readfds, nsel, s =>
    if nsel = 0 then some { readfds := readfds, nsel := nsel, state := s }
    else do
      let fd ← r.list[i]?
      if fd ∉ readfds then autofs_handle_fdset_loop service r k (i + 1) readfds nsel s
      else
        let mp ← aget r.hash fd
        if mp = 0 then none
        else
          autofs_handle_fdset_loop service r k (i + 1) (readfds.erase fd) (nsel - 1)
            (service fd mp s)

/-- `autofs_handle_fdset(readfds, nsel)`. -/
def autofs_handle_fdset {σ : Type} (service : Int → Nat → σ → σ) (r : Registry)
    (readfds : Finset Int) (nsel : Int) (s : σ) : Option (FdsetResult σ) :=
  autofs_handle_fdset_loop service r r.numfds.toNat 0 readfds nsel s

/-- The active descriptors present in the set, in active-list order. -/
def readyFds (r : Registry) (readfds : Finset Int) : List Int :=
  (active r).filter (fun fd => fd ∈ readfds)

/-- A servicing that only records the descriptor and the node it is called with. -/
def recordService (fd : Int) (mp : Nat) (s : List (Int × Nat)) : List (Int × Nat) :=
  s ++ [(fd, mp)]

/-- The node registered for a descriptor, `hash[fd]`. -/
def nodeOf (r : Registry) (fd : Int) : Nat :=
  (aget r.hash fd).getD 0

/-! ## Invariant of the registry -/

/-- The invariant of the registry. -/
structure RegInv (r : Registry) : Prop where
  hash_len : (r.hash.length : Int) = r.autofs_max_fds
  list_len : (r.list.length : Int) = r.autofs_max_fds
  num_count : r.numfds = (slotsInUse r : Int)
  nodup : (active r).Nodup
  mem_iff : ∀ fd, fd ∈ active r ↔ occupied r fd

/-! ## Sequences of calls on one ledger -/

/-- One call that works on the ledger of a handle. -/
inductive LedgerStep where
  | missing (ops : mf_ops) (pkt : autofs_packet_missing)
  | mount_succeeded (mp : am_node)
  | mount_failed (mp : am_node)
  | lookup_failed (name : String)

/-- Perform one call on the ledger. -/
def LedgerStep.apply : LedgerStep → World → World
  | .missing ops pkt, w => autofs_handle_missing ops pkt w
  | .mount_succeeded mp, w => autofs_mount_succeeded mp w
  | .mount_failed mp, w => autofs_mount_failed mp w
  | .lookup_failed name, w => autofs_lookup_failed name w

/-- Perform a sequence of calls on the ledger, first to last. -/
def runLedger (steps : List LedgerStep) (w : World) : World :=
  steps.foldl (fun w s => s.apply w) w

/-- The wait tokens of the entries of a ledger, in ledger order. -/
def tokens (l : List autofs_pending_mount) : List Nat :=
  l.map (fun p => p.wait_queue_token)

/-! ## Handle lifecycle (lines 124-200) -/

/-- `autofs_get_fh(mp)`. `pipe` is `none` when `pipe(fds)` fails and
`some (fds[0], fds[1])` otherwise; `version` is what `ALLOC` leaves in the field
that is not initialised. The result is `none` when the call leaves the storage
of the registry, `some (none, r)` for `return 0` and `some (some fh, r')` for
`return fh`. -/
def autofs_get_fh (pipe : Option (Int × Int)) (version : Int) (mp : Nat) (r : Registry) :
    Option (Option autofs_fh_t × Registry) :=
  match pipe with
  | none => some (none, r)
  | some fds =>
    if fds.1 > r.autofs_max_fds then some (none, r)
    else
      let fh : autofs_fh_t :=
        { fd := fds.1, kernelfd := fds.2, ioctlfd := -1, version := version, pending := [] }
      (hash_insert fh.fd mp r).map (fun r' => (some fh, r'))

/-- `AUTOFS_MIN_VERSION`. -/
def AUTOFS_MIN_VERSION : Int := 3

/-- The `FS_AUTOFS` bit of the two flag words of `amfs_host_ops`. -/
structure amfs_host_flags where
  nfs_fs_autofs : Bool
  autofs_fs_autofs : Bool
deriving DecidableEq, Repr

/-- What `autofs_mounted` leaves: the handle, the flags of `amfs_host_ops` and the
calls made. -/
structure MountedResult where
  fh : autofs_fh_t
  flags : amfs_host_flags
  trace : List Event
deriving DecidableEq, Repr

/-- `autofs_mounted(mf)` on the handle `mf->mf_autofs_fh`. `opened` is the result
of `open(mf->mf_mount, O_RDONLY)`; `protover` is `none` when the
`AUTOFS_IOC_PROTOVER` command fails and `some v` when it succeeds and the kernel
stores `v` in `fh->version`. -/
def autofs_mounted (mf_mount : String) (opened : Int) (protover : Option Int)
    (fh : autofs_fh_t) (flags : amfs_host_flags) : MountedResult :=
  let version : Int :=
    match protover with
    | none => AUTOFS_MIN_VERSION
    | some v => v
  { fh := { fh with kernelfd := -1, ioctlfd := opened, version := version }
    flags :=
      if version < 4 then { nfs_fs_autofs := false, autofs_fs_autofs := false } else flags
    trace :=
      [Event.close fh.kernelfd, Event.open_rdonly mf_mount,
       Event.ioctl opened .AUTOFS_IOC_PROTOVER 0] }

/-- `autofs_release_fh(fh)`; `fh` is `none` for a `NULL` pointer. The result is the
registry and the calls made, or `none` when `hash_delete` leaves the storage of
the registry. The handle is freed; no field of it is written before. -/
def autofs_release_fh (fh : Option autofs_fh_t) (r : Registry) :
    Option (Registry × List Event) :=
  match fh with
  | none => some (r, [])
  | some fh => do
    let r' ← hash_delete fh.fd r
    let t1 := if fh.kernelfd ≥ 0 then [Event.close fh.kernelfd] else []
    let t2 :=
      if fh.ioctlfd ≥ 0 then
        [Event.ioctl fh.ioctlfd .AUTOFS_IOC_CATATONIC 0, Event.close fh.ioctlfd]
      else []
    let t3 := if fh.fd ≥ 0 then [Event.close fh.fd] else []
    some (r', t1 ++ t2 ++ t3)

/-- The system calls and helpers `autofs_link_mount` calls. -/
inductive Syscall where
  | getpgrp
  | setpgrp
  | stat (path : String)
  | setpgid (pid : Int) (pgrp : Int)
  | lstat (path : String)
  | mkdirs (path : String) (mode : Nat)
  | mount_fs (dir : String) (fsname : String)
  | rmdir (path : String)
  | symlink (target : String) (linkpath : String)
deriving DecidableEq, Repr

/-- The answers of the system to the calls of `autofs_link_mount`: the value each
call returns, whether `lstat` found a symbolic link, and `errno` after a failed
`setpgid` and after a failed `symlink`. -/
structure LinkEnv where
  getpgrp : Int
  stat : Int
  setpgid : Int
  setpgid_errno : Int
  lstat : Int
  is_lnk : Bool
  mount_fs : Int
  symlink : Int
  symlink_errno : Int
deriving DecidableEq, Repr

/-- The code from the label `use_symlink` to the end of `autofs_link_mount`. -/
def use_symlink (env : LinkEnv) (am_path am_link : String) (err : Int)
    (trace : List Syscall) : Int × List Syscall :=
  if err ≠ 0 then
    if env.symlink ≠ 0 then (env.symlink_errno, trace ++ [Syscall.symlink am_link am_path])
    else (0, trace ++ [Syscall.symlink am_link am_path])
  else (0, trace)

/-- The bind-mount attempt of `autofs_link_mount` from the `lstat` on. -/
def bind_from_lstat (env : LinkEnv) (am_path am_link : String)
    (trace : List Syscall) : Int × List Syscall :=
  let trace := trace ++ [Syscall.lstat am_link]
  if env.lstat ≠ 0 then use_symlink env am_path am_link env.lstat trace
  else if env.is_lnk then use_symlink env am_path am_link env.lstat trace
  else
    let trace := trace ++ [Syscall.mkdirs am_path 0o555, Syscall.mount_fs am_path am_link]
    if env.mount_fs ≠ 0 then
      use_symlink env am_path am_link env.mount_fs (trace ++ [Syscall.rmdir am_path])
    else use_symlink env am_path am_link env.mount_fs trace

/-- `autofs_link_mount(mp)` for a node with path `am_path` and link target
`am_link`: the value returned and the calls made. `MNT2_GEN_OPT_BIND` tells
whether that macro is defined; `bind_works` and `foreground` are the variables of
these names. -/
def autofs_link_mount (MNT2_GEN_OPT_BIND : Bool) (bind_works : Bool) (foreground : Int)
    (env : LinkEnv) (am_path am_link : String) : Int × List Syscall :=
  if MNT2_GEN_OPT_BIND && bind_works then
    if foreground = 0 then
      let trace := [Syscall.getpgrp, Syscall.setpgrp, Syscall.stat am_link,
        Syscall.setpgid 0 env.getpgrp]
      if env.setpgid ≠ 0 then (env.setpgid_errno, trace)
      else if env.stat ≠ 0 then use_symlink env am_path am_link env.stat trace
      else bind_from_lstat env am_path am_link trace
    else bind_from_lstat env am_path am_link []
  else use_symlink env am_path am_link (-1) []

/-- Whether a call belongs to the process-group step. -/
def Syscall.isPgrp : Syscall → Bool
  | .getpgrp => true
  | .setpgrp => true
  | .setpgid _ _ => true
  | _ => false

/-- Answers of a system on which every call succeeds and the target is a directory. -/
def envAllFine : LinkEnv :=
  { getpgrp := 77, stat := 0, setpgid := 0, setpgid_errno := 0, lstat := 0,
    is_lnk := false, mount_fs := 0, symlink := 0, symlink_errno := 0 }

/-- A handle as `autofs_get_fh` returns it for the pipe `(4, 5)`, no call made. -/
def worldFresh : World :=
  { fh := { fd := 4, kernelfd := 5, ioctlfd := -1, version := 0, pending := [] }
    d_drops := 0, s_lookup := 0, trace := [] }

/-- Registry with ceiling 8 after `hash_insert(4, 1)`. -/
def regFour : Registry :=
  { autofs_max_fds := 8, hash := [0, 0, 0, 0, 1, 0, 0, 0],
    list := [4, -1, -1, -1, -1, -1, -1, -1], numfds := 1 }

/-! ## Packet dispatch (lines 323-340) -/

/-- The state of the automounter the dispatcher works on: the handle
`mp->am_mnt->mf_autofs_fh` and the counter `mp->am_stats.s_lookup` of every node
`mp`, the counter `amd_stats.d_drops`, and the calls made so far. -/
structure Amd where
  fhs : Nat → autofs_fh_t
  s_lookup : Nat → Int
  d_drops : Int
  trace : List Event

/-- The part of the state the handler of node `mp` works on. -/
def Amd.world (a : Amd) (mp : Nat) : World :=
  { fh := a.fhs mp, d_drops := a.d_drops, s_lookup := a.s_lookup mp, trace := a.trace }

/-- Store what the handler of node `mp` left. -/
def Amd.put (a : Amd) (mp : Nat) (w : World) : Amd :=
  { fhs := Function.update a.fhs mp w.fh
    s_lookup := Function.update a.s_lookup mp w.s_lookup
    d_drops := w.d_drops
    trace := w.trace }

/-- The fields of `union autofs_packet_union` the dispatcher reads: the type tag
`hdr.type` and the `missing` view of the packet. -/
structure autofs_packet_union where
  hdr_type : Int
  missing : autofs_packet_missing
deriving DecidableEq, Repr

/-- What the dispatcher takes from outside this file: the size
`sizeof(union autofs_packet_union)`, the values of the tags `autofs_ptype_missing`
and `autofs_ptype_expire`, for every descriptor the results of its `read` calls
(call number and requested length) and the packet that a complete read leaves in
the buffer, and the node-tree operations of every node. -/
structure DispatchEnv where
  pktsize : Int
  autofs_ptype_missing : Int
  autofs_ptype_expire : Int
  read : Int → Nat → Int → Int
  packet : Int → autofs_packet_union
  ops : Nat → mf_ops

/-- `autofs_handle_expire(mp, pkt)`: the body is empty. -/
def autofs_handle_expire (w : World) : World := w

/-- The body of the loop of `autofs_handle_fdset` for a ready descriptor, after
`mp = hash[list[i]]`: read a packet from `fh->fd` and dispatch on its type.
`none` when the packet reader does not return. -/
def autofs_service (env : DispatchEnv) (_fd : Int) (mp : Nat) (a : Amd) : Option Amd :=
  let fh := a.fhs mp
  match autofs_get_pkt (env.read fh.fd) env.pktsize env.pktsize.toNat with
  | none => none
  | some (rem, _) =>
    if rem ≠ 0 then some a
    else
      let pkt := env.packet fh.fd
      if pkt.hdr_type = env.autofs_ptype_missing then
        some (a.put mp (autofs_handle_missing (env.ops mp) pkt.missing (a.world mp)))
      else if pkt.hdr_type = env.autofs_ptype_expire then
        some (a.put mp (autofs_handle_expire (a.world mp)))
      else some a

/-- `autofs_handle_fdset(readfds, nsel)` with the packet dispatch as the body of
its loop. -/
def autofs_handle_fdset_pkts (env : DispatchEnv) (r : Registry) (readfds : Finset Int)
    (nsel : Int) (a : Amd) : Option (FdsetResult (Option Amd)) :=
  autofs_handle_fdset (fun fd mp s => s.bind (autofs_service env fd mp)) r readfds nsel
    (some a)

/-- A complete packet is read from the descriptor of the handle of `mp` and its
type tag is `autofs_ptype_missing`. -/
def fullMissing (env : DispatchEnv) (a : Amd) (mp : Nat) : Bool :=
  match autofs_get_pkt (env.read (a.fhs mp).fd) env.pktsize env.pktsize.toNat with
  | none => false
  | some (rem, _) =>
    decide (rem = 0) &&
      decide ((env.packet (a.fhs mp).fd).hdr_type = env.autofs_ptype_missing)

/-- Two mounted handles: node 1 reads descriptor 3, every other node descriptor 5. -/
def amdTwo : Amd :=
  { fhs := fun mp =>
      { fd := if mp = 1 then 3 else 5, kernelfd := -1, ioctlfd := 6, version := 4,
        pending := [] }
    s_lookup := fun _ => 0
    d_drops := 0
    trace := [] }

/-- Packets of 12 bytes with tags 0 (missing) and 1 (expire): descriptor 3 delivers
5 bytes and then nothing, every other descriptor a complete expire packet. -/
def envShortAndExpire : DispatchEnv :=
  { pktsize := 12
    autofs_ptype_missing := 0
    autofs_ptype_expire := 1
    read := fun fd k n => if fd = 3 then readFiveThenEof k n else n
    packet := fun _ => { hdr_type := 1, missing := ⟨7, "home"⟩ }
    ops := fun _ => opsInProgress }

/-- The registry `regFour` after `hash_delete(4)`. -/
def regFourGone : Registry :=
  { autofs_max_fds := 8, hash := [0, 0, 0, 0, 0, 0, 0, 0],
    list := [4, -1, -1, -1, -1, -1, -1, -1], numfds := 0 }

/-- The registry `regFour` after `hash_delete(4)` twice. -/
def regFourGoneTwice : Registry :=
  { autofs_max_fds := 8, hash := [0, 0, 0, 0, 0, 0, 0, 0],
    list := [4, -1, -1, -1, -1, -1, -1, -1], numfds := -1 }

/-- A mounted handle whose kernel-read descriptor is already invalid. -/
def fhNoRead : autofs_fh_t :=
  { fd := -1, kernelfd := -1, ioctlfd := 6, version := 4, pending := [] }

/-! ## Theorems -/

/-! ### Arrays -/

theorem aget_eq_some {α : Type} (a : List α) (i : Int) (x : α) :
    aget a i = some x ↔ 0 ≤ i ∧ a[i.toNat]? = some x := by
  unfold aget
  by_cases h : 0 ≤ i <;> simp [h]

theorem aget_natCast {α : Type} (a : List α) (n : Nat) : aget a (n : Int) = a[n]? := by
  simp [aget]

theorem aset_natCast {α : Type} (a : List α) (n : Nat) (v : α) (h : n < a.length) :
    aset a (n : Int) v = some (a.set n v) := by
  simp [aset, h]

theorem aget_set {α : Type} (a : List α) (k : Nat) (v : α) (x : Int) (hk : k < a.length) :
    aget (a.set k v) x = if x = (k : Int) then some v else aget a x := by
  unfold aget
  by_cases hx : 0 ≤ x
  · obtain ⟨m, rfl⟩ := Int.eq_ofNat_of_zero_le hx
    by_cases hm : m = k
    · subst hm; simp [hk]
    · have : k ≠ m := fun h => hm h.symm
      simp [List.getElem?_set, hm, this]
  · have : x ≠ (k : Int) := by omega
    simp [hx, this]

theorem take_set_succ {α : Type} (l : List α) (n : Nat) (x : α) (h : n < l.length) :
    (l.set n x).take (n + 1) = l.take n ++ [x] := by
  induction l generalizing n with
  | nil => simp at h
  | cons a l ih =>
    cases n with
    | zero => simp
    | succ n =>
      have h' : n < l.length := by simpa using h
      simp [List.set, ih n h']

/-! ### The registry invariant -/

theorem occupied_iff (r : Registry) (fd : Int) :
    occupied r fd ↔ ∃ m, aget r.hash fd = some m ∧ m ≠ 0 := by
  unfold occupied
  cases h : aget r.hash fd with
  | none => simp
  | some m => simp

theorem slotsInUse_lt_of_vacant (r : Registry) (fd : Int) (hv : vacant r fd) :
    slotsInUse r < r.hash.length := by
  unfold vacant at hv
  rw [aget_eq_some] at hv
  obtain ⟨_, hk⟩ := hv
  have hmem : (0 : Nat) ∈ r.hash := List.mem_iff_getElem?.2 ⟨_, hk⟩
  have hle := List.countP_le_length (fun m : Nat => m != 0) (l := r.hash)
  rcases Nat.lt_or_ge (slotsInUse r) r.hash.length with h | h
  · exact h
  · have heq : List.countP (fun m : Nat => m != 0) r.hash = r.hash.length :=
      Nat.le_antisymm hle h
    have := (List.countP_eq_length.1 heq) 0 hmem
    simp at this

theorem regInv_hash_init (getrlimit : Option Nat) : RegInv (hash_init getrlimit) := by
  constructor
  · simp [hash_init]
  · simp [hash_init]
  · simp [hash_init, slotsInUse, List.countP_replicate]
  · simp [hash_init, active]
  · intro fd
    simp only [hash_init, active, occupied, aget]
    by_cases h : 0 ≤ fd
    · simp only [h, if_true]
      cases hg : (List.replicate _ 0 : List Nat)[fd.toNat]? with
      | none => simp
      | some m =>
        have := List.mem_iff_getElem?.2 ⟨_, hg⟩
        simp at this
        simp [this.2]
    · simp [h]

theorem hash_insert_spec (r : Registry) (fd : Int) (mp : Nat) (hI : RegInv r)
    (hmp : mp ≠ 0) (hv : vacant r fd) :
    ∃ r', hash_insert fd mp r = some r' ∧ RegInv r' ∧ active r' = active r ++ [fd] ∧
      r'.numfds = r.numfds + 1 ∧ aget r'.hash fd = some mp ∧
      (∀ x, x ≠ fd → aget r'.hash x = aget r.hash x) := by
  have hlt := slotsInUse_lt_of_vacant r fd hv
  have hv' := hv
  unfold vacant at hv'
  rw [aget_eq_some] at hv'
  obtain ⟨hfd, hk⟩ := hv'
  obtain ⟨k, rfl⟩ := Int.eq_ofNat_of_zero_le hfd
  simp only [Int.toNat_ofNat] at hk
  have hklt : k < r.hash.length := by
    rcases List.getElem?_eq_some.1 hk with ⟨h, _⟩; exact h
  have hk0 : r.hash[k] = 0 := by
    rcases List.getElem?_eq_some.1 hk with ⟨_, h⟩; exact h
  have hnum := hI.num_count
  have hlen : r.list.length = r.hash.length := by
    have h1 := hI.hash_len; have h2 := hI.list_len; omega
  have hnlt : slotsInUse r < r.list.length := by omega
  refine ⟨{ r with hash := r.hash.set k mp, list := r.list.set (slotsInUse r) (k : Int),
                   numfds := r.numfds + 1 }, ?_, ?_, ?_, rfl, ?_, ?_⟩
  · unfold hash_insert
    rw [hv, hnum, aset_natCast _ _ _ hklt, aset_natCast _ _ _ hnlt]
    rfl
  · constructor
    · simpa using hI.hash_len
    · simpa using hI.list_len
    · show r.numfds + 1 = ((List.countP (fun m => m != 0) (r.hash.set k mp) : Nat) : Int)
      rw [List.countP_set _ _ _ _ hklt, hnum]
      simp [hk0, hmp, slotsInUse]
    · show ((r.list.set (slotsInUse r) (k : Int)).take (r.numfds + 1).toNat).Nodup
      have : (r.numfds + 1).toNat = slotsInUse r + 1 := by omega
      rw [this, take_set_succ _ _ _ hnlt]
      have hnd := hI.nodup
      have hnm : ¬ ((k : Int) ∈ active r) := by
        rw [hI.mem_iff]; unfold occupied; rw [hv]; simp
      have hact : active r = r.list.take (slotsInUse r) := by
        unfold active; rw [hnum]; simp
      rw [← hact]
      exact List.Nodup.append hnd (List.nodup_singleton _) (by simpa using hnm)
    · intro x
      show x ∈ (r.list.set (slotsInUse r) (k : Int)).take (r.numfds + 1).toNat ↔ _
      have : (r.numfds + 1).toNat = slotsInUse r + 1 := by omega
      rw [this, take_set_succ _ _ _ hnlt]
      have hact : active r = r.list.take (slotsInUse r) := by
        unfold active; rw [hnum]; simp
      rw [← hact, List.mem_append, hI.mem_iff]
      unfold occupied
      simp only [aget_set _ _ _ _ hklt]
      by_cases hx : x = (k : Int)
      · simp [hx, hmp]
      · simp [hx]
  · show (r.list.set (slotsInUse r) (k : Int)).take (r.numfds + 1).toNat = _
    have : (r.numfds + 1).toNat = slotsInUse r + 1 := by omega
    rw [this, take_set_succ _ _ _ hnlt]
    unfold active; rw [hnum]; simp
  · show aget (r.hash.set k mp) (k : Int) = some mp
    rw [aget_set _ _ _ _ hklt]; simp
  · intro x hx
    show aget (r.hash.set k mp) x = aget r.hash x
    rw [aget_set _ _ _ _ hklt]; simp [hx]

theorem getElem?_append_cons_length {α : Type} (P R : List α) (a : α) :
    (P ++ a :: R)[P.length]? = some a := by
  rw [List.getElem?_append_right (Nat.le_refl _)]
  simp

theorem hash_delete_scan_succ (fd m : Int) (k i : Nat) (list : List Int) :
    hash_delete_scan fd m (k + 1) i list =
      (list[i]?).bind (fun x =>
        if x = fd then (aget list m).bind (fun y => some (list.set i y))
        else hash_delete_scan fd m k (i + 1) list) := by
  rfl

theorem hash_delete_scan_absent (fd m : Int) (A P rest : List Int)
    (hA : ∀ a ∈ A, a ≠ fd) :
    hash_delete_scan fd m A.length P.length (P ++ A ++ rest) = some (P ++ A ++ rest) := by
  induction A generalizing P with
  | nil => simp [hash_delete_scan]
  | cons a A ih =>
    have ha : a ≠ fd := hA a (by simp)
    have hA' : ∀ b ∈ A, b ≠ fd := fun b hb => hA b (by simp [hb])
    have h := ih (P ++ [a]) hA'
    simp only [List.length_append, List.length_singleton, List.append_assoc,
      List.singleton_append] at h
    simp only [List.length_cons, List.append_assoc, List.cons_append]
    rw [hash_delete_scan_succ, getElem?_append_cons_length]
    simp only [Option.some_bind, if_neg ha]
    exact h

theorem hash_delete_scan_present (fd m : Int) (A P rest : List Int) (k : Nat)
    (hA : ∀ a ∈ A, a ≠ fd) :
    hash_delete_scan fd m (A.length + (k + 1)) P.length (P ++ A ++ fd :: rest) =
      (aget (P ++ A ++ fd :: rest) m).bind (fun y => some (P ++ A ++ y :: rest)) := by
  induction A generalizing P with
  | nil =>
    simp only [List.length_nil, Nat.zero_add, List.append_nil]
    rw [hash_delete_scan_succ, getElem?_append_cons_length]
    simp
  | cons a A ih =>
    have ha : a ≠ fd := hA a (by simp)
    have hA' : ∀ b ∈ A, b ≠ fd := fun b hb => hA b (by simp [hb])
    have h := ih (P ++ [a]) hA'
    simp only [List.length_append, List.length_singleton, List.append_assoc,
      List.singleton_append] at h
    have hk : (a :: A).length + (k + 1) = (A.length + (k + 1)) + 1 := by
      simp only [List.length_cons]; omega
    rw [hk]
    simp only [List.append_assoc, List.cons_append]
    rw [hash_delete_scan_succ, getElem?_append_cons_length]
    simp only [Option.some_bind, if_neg ha]
    exact h

theorem hash_delete_scan_active (fd : Int) (L : List Int) (n : Nat)
    (hn : n + 1 ≤ L.length) (hnd : (L.take (n + 1)).Nodup) (hmem : fd ∈ L.take (n + 1)) :
    ∃ L', hash_delete_scan fd (n : Int) n 0 L = some L' ∧ L'.length = L.length ∧
      (L'.take n).Nodup ∧ ∀ x, x ∈ L'.take n ↔ (x ∈ L.take (n + 1) ∧ x ≠ fd) := by
  obtain ⟨A, B, hAB⟩ := List.append_of_mem hmem
  obtain ⟨C, hC⟩ : ∃ C, L = A ++ fd :: B ++ C :=
    ⟨L.drop (n + 1), by rw [← hAB, List.take_append_drop]⟩
  have hlen : A.length + 1 + B.length = n + 1 := by
    have h := congrArg List.length hAB
    simp only [List.length_take, List.length_append, List.length_cons] at h
    omega
  rw [hAB] at hnd
  simp only [hAB]
  have hA : ∀ a ∈ A, a ≠ fd := by
    intro a ha hafd
    subst hafd
    have := List.nodup_append.1 hnd
    exact this.2.2 ha (by simp)
  rcases List.eq_nil_or_concat B with hB | ⟨B', y, hB⟩
  · subst hB
    have hnA : n = A.length := by simpa using hlen.symm
    subst hC
    refine ⟨A ++ fd :: C, ?_, by simp, ?_, ?_⟩
    · have h := hash_delete_scan_absent fd (A.length : Int) A [] (fd :: C) hA
      simpa [hnA] using h
    · have : List.take n (A ++ fd :: C) = A := by simp [hnA]
      rw [this]
      exact (List.nodup_append.1 hnd).1
    · intro x
      have : List.take n (A ++ fd :: C) = A := by simp [hnA]
      rw [this]
      constructor
      · intro hx
        exact ⟨by simp [hx], hA x hx⟩
      · rintro ⟨hx, hne⟩
        simpa [hne] using hx
  · subst hB
    have hnA : n = A.length + (B'.length + 1) := by
      simp only [List.concat_eq_append, List.length_append, List.length_singleton] at hlen
      omega
    subst hC
    have hget : aget (A ++ fd :: B'.concat y ++ C) (n : Int) = some y := by
      rw [aget_natCast]
      have e : A ++ fd :: B'.concat y ++ C = (A ++ fd :: B') ++ y :: C := by simp
      have l : n = (A ++ fd :: B').length := by simp [hnA]
      rw [e, l]
      exact getElem?_append_cons_length _ _ _
    refine ⟨A ++ y :: (B'.concat y ++ C), ?_, by simp, ?_, ?_⟩
    · have h := hash_delete_scan_present fd (n : Int) A [] (B'.concat y ++ C) B'.length hA
      simp only [List.nil_append, List.length_nil] at h
      have e : A ++ fd :: B'.concat y ++ C = A ++ fd :: (B'.concat y ++ C) := by simp
      rw [e] at hget ⊢
      rw [hget, ← hnA] at h
      simpa using h
    · have : List.take n (A ++ y :: (B'.concat y ++ C)) = A ++ y :: B' := by
        have e : A ++ y :: (B'.concat y ++ C) = (A ++ y :: B') ++ (y :: C) := by simp
        rw [e, List.take_left' (by simp [hnA])]
      rw [this]
      have h1 := hnd
      simp only [List.concat_eq_append] at h1
      have h2 : (A ++ fd :: B' ++ [y]).Nodup := by simpa using h1
      have h3 := List.nodup_append.1 h2
      have h4 := List.nodup_append.1 h3.1
      have h5 := List.nodup_cons.1 h4.2.1
      refine List.nodup_append.2 ⟨h4.1, List.nodup_cons.2 ⟨?_, h5.2⟩, ?_⟩
      · intro hy
        exact h3.2.2 (show y ∈ A ++ fd :: B' by simp [hy]) (by simp)
      · intro a haA haB
        rcases List.mem_cons.1 haB with rfl | haB'
        · exact h3.2.2 (show a ∈ A ++ fd :: B' by simp [haA]) (by simp)
        · exact h4.2.2 haA (by simp [haB'])
    · intro x
      have : List.take n (A ++ y :: (B'.concat y ++ C)) = A ++ y :: B' := by
        have e : A ++ y :: (B'.concat y ++ C) = (A ++ y :: B') ++ (y :: C) := by simp
        rw [e, List.take_left' (by simp [hnA])]
      rw [this]
      have h1 := hnd
      simp only [List.concat_eq_append] at h1
      have h2 : (A ++ fd :: B' ++ [y]).Nodup := by simpa using h1
      have h3 := List.nodup_append.1 h2
      have h4 := List.nodup_append.1 h3.1
      have h5 := List.nodup_cons.1 h4.2.1
      have hyfd : y ≠ fd := by
        intro h
        exact h3.2.2 (show y ∈ A ++ fd :: B' by simp [h]) (by simp)
      have hB' : ∀ b ∈ B', b ≠ fd := by
        intro b hb h
        subst h
        exact h5.1 hb
      simp only [List.mem_append, List.mem_cons, List.concat_eq_append, List.not_mem_nil,
        or_false]
      constructor
      · rintro (hx | hx | hx)
        · exact ⟨Or.inl hx, hA x hx⟩
        · exact ⟨Or.inr (Or.inr (Or.inr hx)), by rw [hx]; exact hyfd⟩
        · exact ⟨Or.inr (Or.inr (Or.inl hx)), hB' x hx⟩
      · rintro ⟨hx | hx | hx | hx, hne⟩
        · exact Or.inl hx
        · exact absurd hx hne
        · exact Or.inr (Or.inr hx)
        · exact Or.inr (Or.inl hx)

theorem hash_delete_spec (r : Registry) (fd : Int) (hI : RegInv r) (ho : occupied r fd) :
    ∃ r', hash_delete fd r = some r' ∧ RegInv r' ∧
      (∀ x, x ∈ active r' ↔ (x ∈ active r ∧ x ≠ fd)) ∧
      r'.numfds = r.numfds - 1 ∧ aget r'.hash fd = some 0 ∧
      (∀ x, x ≠ fd → aget r'.hash x = aget r.hash x) := by
  obtain ⟨m, hm, hm0⟩ := (occupied_iff r fd).1 ho
  have hm' := hm
  rw [aget_eq_some] at hm'
  obtain ⟨hfd, hk⟩ := hm'
  obtain ⟨k, rfl⟩ := Int.eq_ofNat_of_zero_le hfd
  simp only [Int.toNat_ofNat] at hk
  have hklt : k < r.hash.length := by
    rcases List.getElem?_eq_some.1 hk with ⟨h, _⟩; exact h
  have hkm : r.hash[k] = m := by
    rcases List.getElem?_eq_some.1 hk with ⟨_, h⟩; exact h
  have hnum := hI.num_count
  have hlen : r.list.length = r.hash.length := by
    have h1 := hI.hash_len; have h2 := hI.list_len; omega
  have hle : slotsInUse r ≤ r.list.length := by
    rw [hlen]; exact List.countP_le_length _
  have hmemfd : (k : Int) ∈ active r := (hI.mem_iff _).2 ho
  have hact : active r = r.list.take (slotsInUse r) := by
    unfold active; rw [hnum]; simp
  have hpos : 1 ≤ slotsInUse r := by
    rw [hact] at hmemfd
    rcases Nat.eq_zero_or_pos (slotsInUse r) with h0 | h0
    · rw [h0] at hmemfd; simp at hmemfd
    · exact h0
  obtain ⟨n, hn⟩ : ∃ n, slotsInUse r = n + 1 := ⟨slotsInUse r - 1, by omega⟩
  rw [hn] at hact hle
  have hnum1 : r.numfds - 1 = (n : Int) := by omega
  have hnd : (r.list.take (n + 1)).Nodup := by rw [← hact]; exact hI.nodup
  obtain ⟨L', hscan, hL'len, hL'nd, hL'mem⟩ :=
    hash_delete_scan_active (k : Int) r.list n hle hnd (by rw [← hact]; exact hmemfd)
  have hcount : List.countP (fun m => m != 0) (r.hash.set k 0) = n := by
    rw [List.countP_set _ _ _ _ hklt]
    have : List.countP (fun m => m != 0) r.hash = n + 1 := hn
    simp [hkm, hm0, this]
  refine ⟨{ r with hash := r.hash.set k 0, list := L', numfds := r.numfds - 1 },
    ?_, ?_, ?_, rfl, ?_, ?_⟩
  · unfold hash_delete
    rw [hm, aset_natCast _ _ _ hklt, hnum1]
    simp only [Int.toNat_ofNat, Option.bind_eq_bind, Option.some_bind, hscan]
  · constructor
    · simpa using hI.hash_len
    · show (L'.length : Int) = r.autofs_max_fds
      rw [hL'len]; exact hI.list_len
    · show r.numfds - 1 = ((List.countP (fun m => m != 0) (r.hash.set k 0) : Nat) : Int)
      rw [hcount, hnum1]
    · show (L'.take (r.numfds - 1).toNat).Nodup
      rw [hnum1]; simpa using hL'nd
    · intro x
      show x ∈ L'.take (r.numfds - 1).toNat ↔ _
      rw [hnum1, Int.toNat_ofNat, hL'mem, ← hact, hI.mem_iff]
      unfold occupied
      simp only [aget_set _ _ _ _ hklt]
      by_cases hx : x = (k : Int)
      · simp [hx]
      · simp [hx]
  · intro x
    show x ∈ L'.take (r.numfds - 1).toNat ↔ _
    rw [hnum1, Int.toNat_ofNat, hL'mem, ← hact]
  · show aget (r.hash.set k 0) (k : Int) = some 0
    rw [aget_set _ _ _ _ hklt]; simp
  · intro x hx
    show aget (r.hash.set k 0) x = aget r.hash x
    rw [aget_set _ _ _ _ hklt]; simp [hx]

theorem regInv_of_reachable (getrlimit : Option Nat) (r : Registry)
    (h : Reachable getrlimit r) : RegInv r := by
  induction h with
  | init => exact regInv_hash_init getrlimit
  | step op _ hexp happ ih =>
    cases op with
    | insert fd mp =>
      obtain ⟨r1, h1, hinv, _⟩ := hash_insert_spec _ fd mp ih hexp.1 hexp.2
      have : hash_insert fd mp _ = some _ := happ
      rw [h1] at this
      cases this
      exact hinv
    | delete fd =>
      obtain ⟨r1, h1, hinv, _⟩ := hash_delete_spec _ fd ih hexp
      have : hash_delete fd _ = some _ := happ
      rw [h1] at this
      cases this
      exact hinv

theorem expected_apply_defined (r : Registry) (op : RegOp) (hI : RegInv r)
    (hexp : op.expected r) : ∃ r', op.apply r = some r' := by
  cases op with
  | insert fd mp =>
    obtain ⟨r1, h1, _⟩ := hash_insert_spec r fd mp hI hexp.1 hexp.2
    exact ⟨r1, h1⟩
  | delete fd =>
    obtain ⟨r1, h1, _⟩ := hash_delete_spec r fd hI hexp
    exact ⟨r1, h1⟩

theorem reachable_of_disciplined (getrlimit : Option Nat) (ops : List RegOp) :
    ∀ r, Reachable getrlimit r → disciplined r ops = true →
      ∀ pre, pre <+: ops → ∃ r', runOps pre r = some r' ∧ Reachable getrlimit r' := by
  induction ops with
  | nil =>
    intro r hr _ pre hpre
    have : pre = [] := List.prefix_nil.1 hpre
    subst this
    exact ⟨r, rfl, hr⟩
  | cons op ops ih =>
    intro r hr hd pre hpre
    rcases List.prefix_cons_iff.1 hpre with hnil | ⟨pre', hpre', hsub⟩
    · subst hnil
      exact ⟨r, rfl, hr⟩
    · subst hpre'
      simp only [disciplined, Bool.and_eq_true, decide_eq_true_eq] at hd
      obtain ⟨hexp, hrest⟩ := hd
      obtain ⟨r1, h1⟩ := expected_apply_defined r op (regInv_of_reachable _ _ hr) hexp
      rw [h1] at hrest
      obtain ⟨r2, h2, hr2⟩ := ih r1 (Reachable.step op hr hexp h1) hrest pre' hsub
      exact ⟨r2, by simp [runOps, h1, h2], hr2⟩

theorem reachable_regTwo : Reachable (some 8) regTwo :=
  have h1 : Reachable (some 8) regOne :=
    Reachable.step (RegOp.insert 3 1) Reachable.init (by decide) (by decide)
  Reachable.step (RegOp.insert 5 2) h1 (by decide) (by decide)

/-! ### Claims on the registry -/

/-- C1, as stated, fails: after `hash_insert(3)`, `hash_insert(3)` again and
`hash_delete(3)` descriptor 3 is still in the active list although its slot is
empty; after `hash_insert(3)`, `hash_delete(5)` descriptor 3 has a non-empty slot
and is not in the active list. All descriptors are below the ceiling 8. -/
theorem registry_membership_counterexample :
    (∀ op ∈ [RegOp.insert 3 1, RegOp.insert 3 2, RegOp.delete 3],
        op.inRange (hash_init (some 8)).autofs_max_fds) ∧
      runOps [RegOp.insert 3 1, RegOp.insert 3 2, RegOp.delete 3] (hash_init (some 8)) =
        some regPhantom ∧
      ¬ ((3 : Int) ∈ active regPhantom ↔ occupied regPhantom 3) ∧
      (∀ op ∈ [RegOp.insert 3 1, RegOp.delete 5],
        op.inRange (hash_init (some 8)).autofs_max_fds) ∧
      runOps [RegOp.insert 3 1, RegOp.delete 5] (hash_init (some 8)) = some regLeak ∧
      ¬ ((3 : Int) ∈ active regLeak ↔ occupied regLeak 3) := by
  decide

/-- C1, amended: for every sequence of `hash_insert` / `hash_delete` calls started
from the state left by `hash_init` in which every insert puts a non-`NULL` node
into an empty slot and every delete is of an occupied slot, every call is defined
and after every call the descriptors in `list[0..numfds)` are exactly the
descriptors whose slot is non-empty. -/
theorem registry_membership_disciplined (getrlimit : Option Nat) (ops : List RegOp)
    (hd : disciplined (hash_init getrlimit) ops = true) :
    ∀ pre, pre <+: ops →
      ∃ r, runOps pre (hash_init getrlimit) = some r ∧
        ∀ fd, fd ∈ active r ↔ occupied r fd := by
  intro pre hpre
  obtain ⟨r, hrun, hr⟩ :=
    reachable_of_disciplined getrlimit ops _ Reachable.init hd pre hpre
  exact ⟨r, hrun, (regInv_of_reachable _ _ hr).mem_iff⟩

/-- C1, amended, at ceiling 8 on insert 3, insert 5, delete 3, insert 3. -/
theorem registry_membership_disciplined_witness :
    disciplined (hash_init (some 8))
        [RegOp.insert 3 1, RegOp.insert 5 2, RegOp.delete 3, RegOp.insert 3 4] = true ∧
      ∀ pre, pre <+: [RegOp.insert 3 1, RegOp.insert 5 2, RegOp.delete 3, RegOp.insert 3 4] →
        ∃ r, runOps pre (hash_init (some 8)) = some r ∧
          ∀ fd, fd ∈ active r ↔ occupied r fd :=
  ⟨by decide, registry_membership_disciplined (some 8) _ (by decide)⟩

/-- C2: in every state reached from `hash_init` by inserts into empty slots and
deletes of occupied slots, a descriptor is in `list[0..numfds)` iff its slot is
non-empty, the active list has no duplicate and `numfds` is the number of
non-empty slots; an insert into an empty slot is defined; and `hash_delete(fd)`
of an occupied slot is defined, leaves exactly the former active descriptors
other than `fd` active, lowers `numfds` by one, empties slot `fd` and changes no
other slot. -/
theorem registry_reachable_invariant (getrlimit : Option Nat) (r : Registry)
    (h : Reachable getrlimit r) :
    (∀ fd, fd ∈ active r ↔ occupied r fd) ∧ (active r).Nodup ∧
      r.numfds = (slotsInUse r : Int) ∧
      (∀ fd mp, mp ≠ 0 → vacant r fd → ∃ r', hash_insert fd mp r = some r') ∧
      (∀ fd, occupied r fd →
        ∃ r', hash_delete fd r = some r' ∧
          (∀ x, x ∈ active r' ↔ (x ∈ active r ∧ x ≠ fd)) ∧
          r'.numfds = r.numfds - 1 ∧ aget r'.hash fd = some 0 ∧
          (∀ x, x ≠ fd → aget r'.hash x = aget r.hash x)) := by
  have hI := regInv_of_reachable _ _ h
  refine ⟨hI.mem_iff, hI.nodup, hI.num_count, ?_, ?_⟩
  · intro fd mp hmp hv
    obtain ⟨r1, h1, _⟩ := hash_insert_spec r fd mp hI hmp hv
    exact ⟨r1, h1⟩
  · intro fd ho
    obtain ⟨r1, h1, _, hmem, hnum, hslot, hother⟩ := hash_delete_spec r fd hI ho
    exact ⟨r1, h1, hmem, hnum, hslot, hother⟩

/-- C2 at the state reached by `hash_insert(3, 1)`, `hash_insert(5, 2)`. -/
theorem registry_reachable_invariant_witness :
    Reachable (some 8) regTwo ∧
      hash_delete 3 regTwo =
        some { autofs_max_fds := 8, hash := [0, 0, 0, 0, 0, 2, 0, 0],
               list := [5, 5, -1, -1, -1, -1, -1, -1], numfds := 1 } ∧
      (active regTwo).Nodup :=
  ⟨reachable_regTwo, by decide,
    (registry_reachable_invariant (some 8) _ reachable_regTwo).2.1⟩

/-- C3 fails on the code: `hash_delete(5)` on a registry in which slot 5 is empty
and descriptor 3 is registered lowers `numfds` from 1 to 0, so the state is not
the one before the call and descriptor 3, whose slot is non-empty, is no longer
in the active list. -/
theorem hash_delete_vacant_changes_state :
    Reachable (some 8) regOne ∧ vacant regOne 5 ∧
      hash_delete 5 regOne = some regLeak ∧ regLeak ≠ regOne ∧
      regOne.numfds = 1 ∧ regLeak.numfds = 0 ∧
      active regOne = [3] ∧ active regLeak = [] ∧ occupied regLeak 3 :=
  ⟨Reachable.step (RegOp.insert 3 1) Reachable.init (by decide) (by decide),
    by decide, by decide, by decide, by decide, by decide, by decide, by decide, by decide⟩

/-! ### The pending-mount ledger -/

theorem find_token_eq_none_iff (t : Nat) (l : List autofs_pending_mount) :
    find_token t l = none ↔ ∀ p ∈ l, p.wait_queue_token ≠ t := by
  induction l with
  | nil => simp [find_token]
  | cons p rest ih =>
    by_cases h : p.wait_queue_token = t
    · simp [find_token, h]
    · simp [find_token, h, ih]

theorem find_token_of_mem (t : Nat) (l : List autofs_pending_mount)
    (h : ∃ p ∈ l, p.wait_queue_token = t) : ∃ q, find_token t l = some q := by
  cases hf : find_token t l with
  | some q => exact ⟨q, rfl⟩
  | none =>
    obtain ⟨p, hp, hpt⟩ := h
    exact absurd hpt ((find_token_eq_none_iff t l).1 hf p hp)

theorem unlink_name_append (n : String) (t : Nat) (Q R : List autofs_pending_mount)
    (hQ : ∀ p ∈ Q, p.name ≠ n) :
    unlink_name n (Q ++ { wait_queue_token := t, name := n } :: R) =
      some ({ wait_queue_token := t, name := n }, Q ++ R) := by
  induction Q with
  | nil => simp [unlink_name]
  | cons q Q ih =>
    have hq : q.name ≠ n := hQ q (by simp)
    have hQ' : ∀ p ∈ Q, p.name ≠ n := fun p hp => hQ p (by simp [hp])
    simp [unlink_name, hq, ih hQ']

theorem unlink_name_absent (n : String) (l : List autofs_pending_mount)
    (h : ∀ p ∈ l, p.name ≠ n) : unlink_name n l = none := by
  induction l with
  | nil => simp [unlink_name]
  | cons q l ih =>
    have hq : q.name ≠ n := h q (by simp)
    have hl : ∀ p ∈ l, p.name ≠ n := fun p hp => h p (by simp [hp])
    simp [unlink_name, hq, ih hl]

theorem handle_missing_dropped (ops : mf_ops) (pkt : autofs_packet_missing) (w : World)
    (h : ∃ p ∈ w.fh.pending, p.wait_queue_token = pkt.wait_queue_token) :
    autofs_handle_missing ops pkt w = { w with d_drops := int_incr w.d_drops } := by
  obtain ⟨q, hq⟩ := find_token_of_mem _ _ h
  simp [autofs_handle_missing, hq]

theorem handle_missing_kept (ops : mf_ops) (pkt : autofs_packet_missing) (w : World)
    (hfresh : find_token pkt.wait_queue_token w.fh.pending = none)
    (hkeep : ¬ inline_failed ops pkt.name) :
    (autofs_handle_missing ops pkt w).fh =
        { w.fh with pending :=
            { wait_queue_token := pkt.wait_queue_token, name := pkt.name } :: w.fh.pending } ∧
      (autofs_handle_missing ops pkt w).d_drops = w.d_drops := by
  unfold inline_failed at hkeep
  simp only [autofs_handle_missing, hfresh]
  by_cases hap : (missing_outcome ops pkt.name).1 = 0
  · have herr : (missing_outcome ops pkt.name).2 < 0 := by
      by_contra hc
      exact hkeep ⟨hap, not_lt.1 hc⟩
    simp only [hap, herr, if_true]
    split <;> simp
  · simp only [hap, if_false]
    split <;> simp

theorem handle_missing_failed (ops : mf_ops) (pkt : autofs_packet_missing) (w : World)
    (hfresh : find_token pkt.wait_queue_token w.fh.pending = none)
    (hfail : inline_failed ops pkt.name) :
    (autofs_handle_missing ops pkt w).fh = w.fh ∧
      (autofs_handle_missing ops pkt w).d_drops = w.d_drops := by
  unfold inline_failed at hfail
  obtain ⟨hap, herr⟩ := hfail
  have herr' : ¬ (missing_outcome ops pkt.name).2 < 0 := not_lt.2 herr
  simp only [autofs_handle_missing, hfresh, hap, herr', if_true, if_false]
  split <;> simp [autofs_lookup_failed, unlink_name]

theorem handle_missing_front (ops : mf_ops) (pkt : autofs_packet_missing) (w : World)
    (t : Nat) (n : String) (Q R : List autofs_pending_mount)
    (hQ : ∀ p ∈ Q, p.name ≠ n ∧ p.wait_queue_token ≠ t)
    (hw : w.fh.pending = Q ++ { wait_queue_token := t, name := n } :: R)
    (hcond : pkt.name = n → pkt.wait_queue_token = t ∨ inline_failed ops pkt.name) :
    ∃ Q', (∀ p ∈ Q', p.name ≠ n ∧ p.wait_queue_token ≠ t) ∧
      (autofs_handle_missing ops pkt w).fh.pending =
        Q' ++ { wait_queue_token := t, name := n } :: R ∧
      (autofs_handle_missing ops pkt w).fh.ioctlfd = w.fh.ioctlfd := by
  cases hf : find_token pkt.wait_queue_token w.fh.pending with
  | some q =>
    have hd : autofs_handle_missing ops pkt w = { w with d_drops := int_incr w.d_drops } := by
      simp only [autofs_handle_missing, hf]
    exact ⟨Q, hQ, by rw [hd]; exact hw, by rw [hd]⟩
  | none =>
    have htok : pkt.wait_queue_token ≠ t := by
      intro h
      have := (find_token_eq_none_iff _ _).1 hf { wait_queue_token := t, name := n }
        (by rw [hw]; simp)
      exact this h.symm
    by_cases hfail : inline_failed ops pkt.name
    · obtain ⟨h1, _⟩ := handle_missing_failed ops pkt w hf hfail
      exact ⟨Q, hQ, by rw [h1, hw], by rw [h1]⟩
    · obtain ⟨h1, _⟩ := handle_missing_kept ops pkt w hf hfail
      have hname : pkt.name ≠ n := by
        intro h
        rcases hcond h with h2 | h2
        · exact htok h2
        · exact hfail h2
      refine ⟨{ wait_queue_token := pkt.wait_queue_token, name := pkt.name } :: Q, ?_, ?_, ?_⟩
      · intro p hp
        rcases List.mem_cons.1 hp with rfl | hp'
        · exact ⟨hname, htok⟩
        · exact hQ p hp'
      · rw [h1]; simp [hw]
      · rw [h1]

theorem handle_missing_seq_front (steps : List (mf_ops × autofs_packet_missing))
    (t : Nat) (n : String) (R : List autofs_pending_mount)
    (hcond : ∀ s ∈ steps, s.2.name = n → s.2.wait_queue_token = t ∨ inline_failed s.1 s.2.name) :
    ∀ (w : World) (Q : List autofs_pending_mount),
      (∀ p ∈ Q, p.name ≠ n ∧ p.wait_queue_token ≠ t) →
      w.fh.pending = Q ++ { wait_queue_token := t, name := n } :: R →
      ∃ Q', (∀ p ∈ Q', p.name ≠ n ∧ p.wait_queue_token ≠ t) ∧
        (handle_missing_seq steps w).fh.pending =
          Q' ++ { wait_queue_token := t, name := n } :: R ∧
        (handle_missing_seq steps w).fh.ioctlfd = w.fh.ioctlfd := by
  induction steps with
  | nil =>
    intro w Q hQ hw
    exact ⟨Q, hQ, by simpa [handle_missing_seq] using hw, by simp [handle_missing_seq]⟩
  | cons s steps ih =>
    intro w Q hQ hw
    obtain ⟨Q1, hQ1, hp1, hfd1⟩ :=
      handle_missing_front s.1 s.2 w t n Q R hQ hw (hcond s (by simp))
    obtain ⟨Q2, hQ2, hp2, hfd2⟩ :=
      ih (fun s' hs' => hcond s' (by simp [hs'])) (autofs_handle_missing s.1 s.2 w) Q1 hQ1 hp1
    refine ⟨Q2, hQ2, ?_, ?_⟩
    · simpa [handle_missing_seq] using hp2
    · rw [← hfd1, ← hfd2]; simp [handle_missing_seq]

/-! ### Claims on the ledger -/

/-- C4, as stated, fails: after the missing packet `{token=3, name="x"}` is left
pending, the packet `{token=4, name="x"}` is not dropped: `d_drops` stays 0,
`lookup_child` is called a second time and the ledger holds two entries for
`"x"`. -/
theorem missing_same_name_counterexample :
    (autofs_handle_missing opsInProgress ⟨3, "x"⟩ world0).fh.pending = [⟨3, "x"⟩] ∧
      (autofs_handle_missing opsInProgress ⟨4, "x"⟩
        (autofs_handle_missing opsInProgress ⟨3, "x"⟩ world0)).fh.pending =
          [⟨4, "x"⟩, ⟨3, "x"⟩] ∧
      (autofs_handle_missing opsInProgress ⟨4, "x"⟩
        (autofs_handle_missing opsInProgress ⟨3, "x"⟩ world0)).d_drops = 0 ∧
      (autofs_handle_missing opsInProgress ⟨4, "x"⟩
        (autofs_handle_missing opsInProgress ⟨3, "x"⟩ world0)).trace =
          [Event.lookup_child "x" true [⟨3, "x"⟩],
           Event.lookup_child "x" true [⟨4, "x"⟩, ⟨3, "x"⟩]] := by
  decide

/-- C4, amended: the duplicate check of `autofs_handle_missing` is by wait token,
not by name. When the ledger holds an entry for name `n` with token `t`, a further
missing packet for `n` with the same token `t` is dropped: `d_drops` is
incremented (as a C `int`), nothing else changes and no entry is created. A
further packet for
`n` with a token `t'` that no entry carries is not dropped: `d_drops` is
unchanged, and when its entry is not failed inline the entry `(t', n)` is put in
front of the unchanged older entries, so that the ledger holds two entries for
`n`. -/
theorem missing_same_name_by_token (ops : mf_ops) (w : World) (t : Nat) (n : String)
    (hmem : { wait_queue_token := t, name := n } ∈ w.fh.pending) :
    autofs_handle_missing ops ⟨t, n⟩ w = { w with d_drops := int_incr w.d_drops } ∧
      ∀ t', find_token t' w.fh.pending = none →
        (autofs_handle_missing ops ⟨t', n⟩ w).d_drops = w.d_drops ∧
        (¬ inline_failed ops n →
          (autofs_handle_missing ops ⟨t', n⟩ w).fh.pending =
              { wait_queue_token := t', name := n } :: w.fh.pending ∧
            { wait_queue_token := t, name := n } ∈
              (autofs_handle_missing ops ⟨t', n⟩ w).fh.pending ∧
            { wait_queue_token := t', name := n } ∈
              (autofs_handle_missing ops ⟨t', n⟩ w).fh.pending) := by
  refine ⟨handle_missing_dropped ops ⟨t, n⟩ w ⟨_, hmem, rfl⟩, ?_⟩
  intro t' hfresh
  constructor
  · by_cases hfail : inline_failed ops n
    · exact (handle_missing_failed ops ⟨t', n⟩ w hfresh hfail).2
    · exact (handle_missing_kept ops ⟨t', n⟩ w hfresh hfail).2
  · intro hkeep
    have h := (handle_missing_kept ops ⟨t', n⟩ w hfresh hkeep).1
    rw [h]
    simp [hmem]

/-- C4, amended, at the ledger left by the packet `{token=3, name="x"}`. -/
theorem missing_same_name_by_token_witness :
    ({ wait_queue_token := 3, name := "x" } : autofs_pending_mount) ∈
        (autofs_handle_missing opsInProgress ⟨3, "x"⟩ world0).fh.pending ∧
      autofs_handle_missing opsInProgress ⟨3, "x"⟩
          (autofs_handle_missing opsInProgress ⟨3, "x"⟩ world0) =
        { autofs_handle_missing opsInProgress ⟨3, "x"⟩ world0 with d_drops := 1 } :=
  ⟨by decide,
    (missing_same_name_by_token opsInProgress
      (autofs_handle_missing opsInProgress ⟨3, "x"⟩ world0) 3 "x" (by decide)).1⟩

/-- C5, as stated, fails: the packet `{token=7, name="home"}` is accepted as fresh
and left in progress, the packet `{token=8, name="home"}` is handled in between,
and `autofs_mount_succeeded` for the node named `"home"` then sends `READY` with
token 8, not 7, and leaves the entry with token 7 in the ledger. -/
theorem mount_succeeded_counterexample :
    find_token 7 world0.fh.pending = none ∧
      ¬ inline_failed opsInProgress "home" ∧
      (autofs_mount_succeeded ⟨"home", "/a/home"⟩
        (handle_missing_seq [(opsInProgress, ⟨8, "home"⟩)]
          (autofs_handle_missing opsInProgress ⟨7, "home"⟩ world0))).trace =
        (handle_missing_seq [(opsInProgress, ⟨8, "home"⟩)]
          (autofs_handle_missing opsInProgress ⟨7, "home"⟩ world0)).trace ++
          [Event.ioctl 6 .AUTOFS_IOC_READY 8] ∧
      (autofs_mount_succeeded ⟨"home", "/a/home"⟩
        (handle_missing_seq [(opsInProgress, ⟨8, "home"⟩)]
          (autofs_handle_missing opsInProgress ⟨7, "home"⟩ world0))).fh.pending =
        [⟨7, "home"⟩] := by
  decide

/-- C5, amended: for every ledger and every missing packet accepted as fresh with
token `t` and name `n` whose entry is left pending, a later
`autofs_mount_succeeded` for a node named `n` under that handle sends exactly one
control command, `READY` carrying `t`, and afterwards the ledger has no entry with
token `t`; this also holds when other missing packets were handled in between,
provided each of them that has the name `n` either carries the token `t` (and is
dropped) or is failed inline. -/
theorem mount_succeeded_ready (ops : mf_ops) (pkt : autofs_packet_missing) (w : World)
    (steps : List (mf_ops × autofs_packet_missing)) (mp : am_node)
    (hfresh : find_token pkt.wait_queue_token w.fh.pending = none)
    (hkeep : ¬ inline_failed ops pkt.name)
    (hname : mp.am_name = pkt.name)
    (hsteps : ∀ s ∈ steps, s.2.name = pkt.name →
      s.2.wait_queue_token = pkt.wait_queue_token ∨ inline_failed s.1 s.2.name) :
    (autofs_mount_succeeded mp
        (handle_missing_seq steps (autofs_handle_missing ops pkt w))).trace =
      (handle_missing_seq steps (autofs_handle_missing ops pkt w)).trace ++
        [Event.ioctl w.fh.ioctlfd .AUTOFS_IOC_READY pkt.wait_queue_token] ∧
    find_token pkt.wait_queue_token
      (autofs_mount_succeeded mp
        (handle_missing_seq steps (autofs_handle_missing ops pkt w))).fh.pending = none := by
  have h1 := (handle_missing_kept ops pkt w hfresh hkeep).1
  have hp1 : (autofs_handle_missing ops pkt w).fh.pending =
      [] ++ { wait_queue_token := pkt.wait_queue_token, name := pkt.name } :: w.fh.pending := by
    rw [h1]; rfl
  obtain ⟨Q, hQ, hp2, hfd2⟩ :=
    handle_missing_seq_front steps pkt.wait_queue_token pkt.name w.fh.pending hsteps
      (autofs_handle_missing ops pkt w) [] (by simp) hp1
  have hfd : (handle_missing_seq steps (autofs_handle_missing ops pkt w)).fh.ioctlfd =
      w.fh.ioctlfd := by rw [hfd2, h1]
  have hun := unlink_name_append pkt.name pkt.wait_queue_token Q w.fh.pending
    (fun p hp => (hQ p hp).1)
  constructor
  · simp only [autofs_mount_succeeded, hname, hp2, hun, hfd]
  · simp only [autofs_mount_succeeded, hname, hp2, hun]
    rw [find_token_eq_none_iff]
    intro p hp
    rcases List.mem_append.1 hp with hq | hr
    · exact (hQ p hq).2
    · exact (find_token_eq_none_iff _ _).1 hfresh p hr

/-- C5, amended, at token 7, name `"home"`, with a failed packet for `"x"` handled
in between. -/
theorem mount_succeeded_ready_witness :
    ((autofs_mount_succeeded ⟨"home", "/a/home"⟩
        (handle_missing_seq [(opsNoEntry, ⟨8, "x"⟩)]
          (autofs_handle_missing opsInProgress ⟨7, "home"⟩ world0))).trace =
      (handle_missing_seq [(opsNoEntry, ⟨8, "x"⟩)]
          (autofs_handle_missing opsInProgress ⟨7, "home"⟩ world0)).trace ++
        [Event.ioctl world0.fh.ioctlfd .AUTOFS_IOC_READY 7] ∧
    find_token 7
      (autofs_mount_succeeded ⟨"home", "/a/home"⟩
        (handle_missing_seq [(opsNoEntry, ⟨8, "x"⟩)]
          (autofs_handle_missing opsInProgress ⟨7, "home"⟩ world0))).fh.pending = none) ∧
    (autofs_mount_succeeded ⟨"home", "/a/home"⟩
        (handle_missing_seq [(opsNoEntry, ⟨8, "x"⟩)]
          (autofs_handle_missing opsInProgress ⟨7, "home"⟩ world0))).fh.pending = [] :=
  ⟨mount_succeeded_ready opsInProgress ⟨7, "home"⟩ world0 [(opsNoEntry, ⟨8, "x"⟩)]
    ⟨"home", "/a/home"⟩ (by decide) (by decide) rfl (by decide), by decide⟩

/-- C6, as stated, fails: for the packet `{token=7, name="home"}` on an empty
ledger with `lookup_child` returning no node and error 2, the ledger handed to
`lookup_child` already holds the entry with token 7. -/
theorem missing_inline_failure_counterexample :
    find_token 7 world0.fh.pending = none ∧
      opsNoEntry.lookup_child "home" = (0, 2) ∧
      (autofs_handle_missing opsNoEntry ⟨7, "home"⟩ world0).trace =
        [Event.lookup_child "home" true [⟨7, "home"⟩],
         Event.ioctl 6 .AUTOFS_IOC_FAIL 7] ∧
      find_token 7 [(⟨7, "home"⟩ : autofs_pending_mount)] ≠ none := by
  decide

/-- C6, amended: for every missing packet with a token not yet in the ledger whose
lookup fails inline (`lookup_child` returns no node and a non-negative error),
`autofs_handle_missing` puts the entry of the packet in front of the ledger before
it calls `lookup_child`, which therefore runs with that entry in the ledger; it
then makes no other call than exactly one `FAIL` control command carrying the
wait token of the packet, which removes the entry again: the ledger after the
handling is the ledger before it and has no entry for the token. -/
theorem missing_inline_failure (ops : mf_ops) (pkt : autofs_packet_missing) (w : World)
    (hfresh : find_token pkt.wait_queue_token w.fh.pending = none)
    (hnode : (ops.lookup_child pkt.name).1 = 0)
    (herr : 0 ≤ (ops.lookup_child pkt.name).2) :
    (autofs_handle_missing ops pkt w).trace =
        w.trace ++
          [Event.lookup_child pkt.name true
              ({ wait_queue_token := pkt.wait_queue_token, name := pkt.name } :: w.fh.pending),
           Event.ioctl w.fh.ioctlfd .AUTOFS_IOC_FAIL pkt.wait_queue_token] ∧
      (autofs_handle_missing ops pkt w).fh = w.fh ∧
      find_token pkt.wait_queue_token (autofs_handle_missing ops pkt w).fh.pending = none := by
  have hcall : ¬ ((ops.lookup_child pkt.name).1 ≠ 0 ∧ (ops.lookup_child pkt.name).2 < 0) := by
    intro h; exact h.1 hnode
  have hout : missing_outcome ops pkt.name = ops.lookup_child pkt.name := by
    simp only [missing_outcome, hcall, if_false]
  have herr' : ¬ (ops.lookup_child pkt.name).2 < 0 := not_lt.2 herr
  have hres : autofs_handle_missing ops pkt w =
      { w with
        trace := w.trace ++
          [Event.lookup_child pkt.name true
              ({ wait_queue_token := pkt.wait_queue_token, name := pkt.name } :: w.fh.pending),
           Event.ioctl w.fh.ioctlfd .AUTOFS_IOC_FAIL pkt.wait_queue_token]
        s_lookup := int_incr w.s_lookup } := by
    simp only [autofs_handle_missing, hfresh, hout, hnode, herr', hcall, if_true, if_false,
      autofs_lookup_failed, unlink_name]
    simp
  rw [hres]
  exact ⟨rfl, rfl, hfresh⟩

/-- C6, amended, at token 7, name `"home"` on an empty ledger. -/
theorem missing_inline_failure_witness :
    (autofs_handle_missing opsNoEntry ⟨7, "home"⟩ world0).trace =
        world0.trace ++
          [Event.lookup_child "home" true [⟨7, "home"⟩],
           Event.ioctl world0.fh.ioctlfd .AUTOFS_IOC_FAIL 7] ∧
      (autofs_handle_missing opsNoEntry ⟨7, "home"⟩ world0).fh = world0.fh ∧
      find_token 7 (autofs_handle_missing opsNoEntry ⟨7, "home"⟩ world0).fh.pending = none :=
  missing_inline_failure opsNoEntry ⟨7, "home"⟩ world0 (by decide) (by decide) (by decide)

/-- C7, as stated, fails: after the packets `{token=9, name="proj"}` and
`{token=8, name="proj"}` were both left in progress the ledger holds the entry
with token 9 and name `"proj"`, and `autofs_mount_failed` for the node named
`"proj"` sends `FAIL` with token 8 and leaves the entry with token 9 in the
ledger. -/
theorem mount_failed_counterexample :
    (handle_missing_seq [(opsInProgress, ⟨9, "proj"⟩), (opsInProgress, ⟨8, "proj"⟩)]
        world0).fh.pending = [⟨8, "proj"⟩, ⟨9, "proj"⟩] ∧
      (autofs_mount_failed ⟨"proj", "/a/proj"⟩
        (handle_missing_seq [(opsInProgress, ⟨9, "proj"⟩), (opsInProgress, ⟨8, "proj"⟩)]
          world0)).trace =
        (handle_missing_seq [(opsInProgress, ⟨9, "proj"⟩), (opsInProgress, ⟨8, "proj"⟩)]
          world0).trace ++
          [Event.rmdirs "/a/proj", Event.ioctl 6 .AUTOFS_IOC_FAIL 8] ∧
      (autofs_mount_failed ⟨"proj", "/a/proj"⟩
        (handle_missing_seq [(opsInProgress, ⟨9, "proj"⟩), (opsInProgress, ⟨8, "proj"⟩)]
          world0)).fh.pending = [⟨9, "proj"⟩] := by
  decide

/-- C7, amended: for every ledger in which the first entry named `n`, in ledger
order, is the entry with token `t`, `autofs_mount_failed` for a node named `n`
calls `rmdirs` on the path of the node, then sends exactly one control command,
`FAIL` carrying `t`, and removes that entry, leaving the others in order; from a
ledger holding only that entry the ledger is empty afterwards. -/
theorem mount_failed_first_named (mp : am_node) (w : World) (t : Nat)
    (Q R : List autofs_pending_mount)
    (hQ : ∀ p ∈ Q, p.name ≠ mp.am_name)
    (hw : w.fh.pending = Q ++ { wait_queue_token := t, name := mp.am_name } :: R) :
    (autofs_mount_failed mp w).trace =
        w.trace ++ [Event.rmdirs mp.am_path, Event.ioctl w.fh.ioctlfd .AUTOFS_IOC_FAIL t] ∧
      (autofs_mount_failed mp w).fh.pending = Q ++ R ∧
      (Q = [] → R = [] → (autofs_mount_failed mp w).fh.pending = []) := by
  have hun := unlink_name_append mp.am_name t Q R hQ
  have hp : (autofs_mount_failed mp w).fh.pending = Q ++ R := by
    simp only [autofs_mount_failed, hw, hun]
  refine ⟨?_, hp, ?_⟩
  · simp only [autofs_mount_failed, hw, hun]
  · intro h1 h2
    rw [hp, h1, h2]; rfl

/-- C7, amended, at token 9, name `"proj"`: the ledger is empty afterwards. -/
theorem mount_failed_first_named_witness :
    (autofs_mount_failed ⟨"proj", "/a/proj"⟩
        (autofs_handle_missing opsInProgress ⟨9, "proj"⟩ world0)).trace =
      (autofs_handle_missing opsInProgress ⟨9, "proj"⟩ world0).trace ++
        [Event.rmdirs "/a/proj", Event.ioctl 6 .AUTOFS_IOC_FAIL 9] ∧
    (autofs_mount_failed ⟨"proj", "/a/proj"⟩
        (autofs_handle_missing opsInProgress ⟨9, "proj"⟩ world0)).fh.pending = [] :=
  have h := mount_failed_first_named ⟨"proj", "/a/proj"⟩
    (autofs_handle_missing opsInProgress ⟨9, "proj"⟩ world0) 9 [] [] (by decide) (by decide)
  ⟨h.1, h.2.1⟩

theorem int_incr_of_lt (x : Int) (hmin : INT_MIN ≤ x) (hmax : x < INT_MAX) :
    int_incr x = x + 1 := by
  unfold INT_MIN at hmin
  unfold INT_MAX at hmax
  unfold int_incr
  omega

/-- C8, as stated, fails: with `amd_stats.d_drops` at `INT_MAX` a missing packet
whose token is already in the ledger is dropped and the counter, a C `int`, does
not increase by one: the increment overflows and leaves `INT_MIN`. -/
theorem missing_duplicate_token_counterexample :
    (∃ p ∈ worldDropsMax.fh.pending, p.wait_queue_token = 3) ∧
      worldDropsMax.d_drops = 2147483647 ∧
      (autofs_handle_missing opsNoEntry ⟨3, "y"⟩ worldDropsMax).d_drops = -2147483648 ∧
      (autofs_handle_missing opsNoEntry ⟨3, "y"⟩ worldDropsMax).d_drops ≠
        worldDropsMax.d_drops + 1 :=
  ⟨⟨⟨3, "x"⟩, by decide, rfl⟩, by decide, by decide, by decide⟩

/-- C8, amended: when the wait token of a missing packet is the token of an entry
already in the ledger, `autofs_handle_missing` only increments
`amd_stats.d_drops`, a C `int`: the counter increases by exactly one whenever it
is below `INT_MAX`; the handle and its ledger are unchanged, no call is made (no
`lookup_child`, no `mount_child`, no control command) and `s_lookup` is not
incremented. -/
theorem missing_duplicate_token_dropped (ops : mf_ops) (pkt : autofs_packet_missing)
    (w : World)
    (h : ∃ p ∈ w.fh.pending, p.wait_queue_token = pkt.wait_queue_token) :
    (autofs_handle_missing ops pkt w).fh.pending = w.fh.pending ∧
      (autofs_handle_missing ops pkt w).fh = w.fh ∧
      (autofs_handle_missing ops pkt w).d_drops = int_incr w.d_drops ∧
      (INT_MIN ≤ w.d_drops → w.d_drops < INT_MAX →
        (autofs_handle_missing ops pkt w).d_drops = w.d_drops + 1) ∧
      (autofs_handle_missing ops pkt w).trace = w.trace ∧
      (autofs_handle_missing ops pkt w).s_lookup = w.s_lookup := by
  rw [handle_missing_dropped ops pkt w h]
  exact ⟨rfl, rfl, rfl, fun hmin hmax => int_incr_of_lt _ hmin hmax, rfl, rfl⟩

/-- C8, amended, at a second packet with token 3 while the entry with token 3 is
pending and no packet was dropped before. -/
theorem missing_duplicate_token_dropped_witness :
    (∃ p ∈ (autofs_handle_missing opsInProgress ⟨3, "x"⟩ world0).fh.pending,
        p.wait_queue_token = 3) ∧
      (autofs_handle_missing opsNoEntry ⟨3, "y"⟩
        (autofs_handle_missing opsInProgress ⟨3, "x"⟩ world0)).d_drops = 0 + 1 ∧
      (autofs_handle_missing opsNoEntry ⟨3, "y"⟩
        (autofs_handle_missing opsInProgress ⟨3, "x"⟩ world0)).trace =
        (autofs_handle_missing opsInProgress ⟨3, "x"⟩ world0).trace :=
  have hex : ∃ p ∈ (autofs_handle_missing opsInProgress ⟨3, "x"⟩ world0).fh.pending,
      p.wait_queue_token = 3 := ⟨⟨3, "x"⟩, by decide, rfl⟩
  have h := missing_duplicate_token_dropped opsNoEntry ⟨3, "y"⟩
    (autofs_handle_missing opsInProgress ⟨3, "x"⟩ world0) hex
  ⟨hex, h.2.2.2.1 (by decide) (by decide), h.2.2.2.2.1⟩

/-! ### The packet reader -/

theorem autofs_get_pkt_loop_spec (read : Nat → Int → Int) (hread : ∀ k n, read k n ≤ n) :
    ∀ (fuel k : Nat) (bytes : Int), 0 < bytes → bytes.toNat ≤ fuel →
      ∃ rem tr, autofs_get_pkt_loop read fuel k bytes = some (rem, tr) ∧
        (∀ j x, tr[j]? = some x →
          x.1 = bytes - ((tr.take j).map Prod.snd).sum ∧ x.2 = read (k + j) x.1) ∧
        (∀ j x, tr[j]? = some x → j + 1 < tr.length → 0 < x.2) ∧
        rem = bytes - (((tr.map Prod.snd).takeWhile (fun i => decide (0 < i))).sum) ∧
        (rem ≠ 0 ↔ ∃ x ∈ tr, x.2 ≤ 0) := by
  intro fuel
  induction fuel with
  | zero =>
    intro k bytes hpos hfuel
    omega
  | succ fuel ih =>
    intro k bytes hpos hfuel
    have hle := hread k bytes
    by_cases hi : read k bytes ≤ 0
    · refine ⟨bytes, [(bytes, read k bytes)], ?_, ?_, ?_, ?_, ?_⟩
      · simp [autofs_get_pkt_loop, hi]
      · intro j x hx
        cases j with
        | zero =>
          simp only [List.getElem?_cons_zero, Option.some.injEq] at hx
          subst hx
          simp
        | succ j => simp at hx
      · intro j x _ hj
        simp at hj
      · have : ¬ 0 < read k bytes := not_lt.2 hi
        simp [List.takeWhile, this]
      · constructor
        · intro _
          exact ⟨(bytes, read k bytes), by simp, hi⟩
        · intro _
          omega
    · have hipos : 0 < read k bytes := not_le.1 hi
      by_cases hz : bytes - read k bytes ≠ 0
      · have hpos' : 0 < bytes - read k bytes := by omega
        have hfuel' : (bytes - read k bytes).toNat ≤ fuel := by omega
        obtain ⟨rem, tr, hrun, hreq, hallpos, hrem, hnz⟩ :=
          ih (k + 1) (bytes - read k bytes) hpos' hfuel'
        refine ⟨rem, (bytes, read k bytes) :: tr, ?_, ?_, ?_, ?_, ?_⟩
        · simp [autofs_get_pkt_loop, hi, hz, hrun]
        · intro j x hx
          cases j with
          | zero =>
            simp only [List.getElem?_cons_zero, Option.some.injEq] at hx
            subst hx
            simp
          | succ j =>
            simp only [List.getElem?_cons_succ] at hx
            obtain ⟨h1, h2⟩ := hreq j x hx
            constructor
            · rw [h1]
              simp only [List.take_succ_cons, List.map_cons, List.sum_cons]
              omega
            · rw [h2]
              congr 1
              omega
        · intro j x hx hj
          cases j with
          | zero =>
            simp only [List.getElem?_cons_zero, Option.some.injEq] at hx
            subst hx
            exact hipos
          | succ j =>
            simp only [List.getElem?_cons_succ] at hx
            exact hallpos j x hx (by simpa using hj)
        · rw [hrem]
          simp only [List.map_cons, List.takeWhile, hipos, decide_True, List.sum_cons]
          omega
        · rw [hnz]
          constructor
          · rintro ⟨x, hx, hx0⟩
            exact ⟨x, by simp [hx], hx0⟩
          · rintro ⟨x, hx, hx0⟩
            rcases List.mem_cons.1 hx with rfl | hx'
            · exact absurd hx0 hi
            · exact ⟨x, hx', hx0⟩
      · have hz' : bytes - read k bytes = 0 := not_not.1 hz
        refine ⟨bytes - read k bytes, [(bytes, read k bytes)], ?_, ?_, ?_, ?_, ?_⟩
        · simp [autofs_get_pkt_loop, hi, hz']
        · intro j x hx
          cases j with
          | zero =>
            simp only [List.getElem?_cons_zero, Option.some.injEq] at hx
            subst hx
            simp
          | succ j => simp at hx
        · intro j x _ hj
          simp at hj
        · simp [List.takeWhile, hipos]
        · constructor
          · intro h
            exact absurd hz' h
          · rintro ⟨x, hx, hx0⟩
            simp only [List.mem_singleton] at hx
            subst hx
            exact absurd hx0 hi

/-- C10: with `read` answering every request with at most the requested length,
`autofs_get_pkt` on a packet size `bytes > 0` returns within `bytes` iterations;
every `read` is asked for `bytes` minus the sum of the earlier results; every
result but the last is positive; the returned value is `bytes` minus the sum of
the positive results obtained before the first zero or negative one; it is `0`
iff all results are positive and add up to `bytes`, and non-zero iff some `read`
returned zero or a negative value. -/
theorem autofs_get_pkt_spec (read : Nat → Int → Int) (bytes : Int) (fuel : Nat)
    (hpos : 0 < bytes) (hread : ∀ k n, read k n ≤ n) (hfuel : bytes.toNat ≤ fuel) :
    ∃ rem tr, autofs_get_pkt read bytes fuel = some (rem, tr) ∧
      (∀ j x, tr[j]? = some x →
        x.1 = bytes - ((tr.take j).map Prod.snd).sum ∧ x.2 = read j x.1) ∧
      (∀ j x, tr[j]? = some x → j + 1 < tr.length → 0 < x.2) ∧
      rem = bytes - (((tr.map Prod.snd).takeWhile (fun i => decide (0 < i))).sum) ∧
      (rem = 0 ↔ (∀ x ∈ tr, 0 < x.2) ∧ (tr.map Prod.snd).sum = bytes) ∧
      (rem ≠ 0 ↔ ∃ x ∈ tr, x.2 ≤ 0) := by
  obtain ⟨rem, tr, hrun, hreq, hallpos, hrem, hnz⟩ :=
    autofs_get_pkt_loop_spec read hread fuel 0 bytes hpos hfuel
  refine ⟨rem, tr, hrun, ?_, hallpos, hrem, ?_, hnz⟩
  · intro j x hx
    have := hreq j x hx
    simpa using this
  · constructor
    · intro h0
      have hall : ∀ x ∈ tr, 0 < x.2 := by
        intro x hx
        by_contra hc
        exact (hnz.2 ⟨x, hx, not_lt.1 hc⟩) h0
      refine ⟨hall, ?_⟩
      have htw : (tr.map Prod.snd).takeWhile (fun i => decide (0 < i)) = tr.map Prod.snd := by
        rw [List.takeWhile_eq_self_iff]
        intro i hi
        obtain ⟨x, hx, rfl⟩ := List.mem_map.1 hi
        simpa using hall x hx
      rw [htw] at hrem
      omega
    · rintro ⟨hall, _⟩
      by_contra hc
      obtain ⟨x, hx, hx0⟩ := hnz.1 hc
      have := hall x hx
      omega

/-- C10 at a packet of 12 bytes of which only 5 arrive: 7 bytes are missing. -/
theorem autofs_get_pkt_spec_witness :
    autofs_get_pkt readFiveThenEof 12 12 = some (7, [(12, 5), (7, 0)]) ∧
    ∃ rem tr, autofs_get_pkt readFiveThenEof 12 12 = some (rem, tr) ∧
      (∀ j x, tr[j]? = some x →
        x.1 = 12 - ((tr.take j).map Prod.snd).sum ∧
          x.2 = readFiveThenEof j x.1) ∧
      (∀ j x, tr[j]? = some x → j + 1 < tr.length → 0 < x.2) ∧
      rem = 12 - (((tr.map Prod.snd).takeWhile (fun i => decide (0 < i))).sum) ∧
      (rem = 0 ↔ (∀ x ∈ tr, 0 < x.2) ∧ (tr.map Prod.snd).sum = 12) ∧
      (rem ≠ 0 ↔ ∃ x ∈ tr, x.2 ≤ 0) :=
  ⟨by decide,
    autofs_get_pkt_spec readFiveThenEof 12 12 (by decide)
      (by intro k n; by_cases hk : k = 0 <;> simp [readFiveThenEof, hk]) (by decide)⟩

/-! ### The readiness dispatcher -/

theorem fdset_loop_spec {σ : Type} (service : Int → Nat → σ → σ) (r : Registry)
    (rest : List Int) (A : List Int) :
    ∀ (P : List Int) (readfds : Finset Int) (nsel : Int) (s : σ),
      r.list = P ++ A ++ rest → A.Nodup → (∀ a ∈ A, occupied r a) → 0 ≤ nsel →
      autofs_handle_fdset_loop service r A.length P.length readfds nsel s =
        some
          { readfds :=
              readfds \ ((A.filter (fun fd => fd ∈ readfds)).take nsel.toNat).toFinset
            nsel := nsel - (((A.filter (fun fd => fd ∈ readfds)).take nsel.toNat).length : Int)
            state :=
              ((A.filter (fun fd => fd ∈ readfds)).take nsel.toNat).foldl
                (fun s fd => service fd (nodeOf r fd) s) s } := by
  induction A with
  | nil =>
    intro P readfds nsel s _ _ _ _
    simp [autofs_handle_fdset_loop]
  | cons a A ih =>
    intro P readfds nsel s hlist hnd hocc hnsel
    have hlist' : r.list = (P ++ [a]) ++ A ++ rest := by simp [hlist]
    have hnd' : A.Nodup := (List.nodup_cons.1 hnd).2
    have haA : a ∉ A := (List.nodup_cons.1 hnd).1
    have hocc' : ∀ b ∈ A, occupied r b := fun b hb => hocc b (by simp [hb])
    have hget : r.list[P.length]? = some a := by
      rw [hlist, List.append_assoc]
      exact getElem?_append_cons_length _ _ _
    by_cases h0 : nsel = 0
    · subst h0
      simp [autofs_handle_fdset_loop]
    · have hpos : 0 < nsel := by omega
      by_cases hin : a ∈ readfds
      · obtain ⟨m, hm, hm0⟩ := (occupied_iff r a).1 (hocc a (by simp))
        have hnode : nodeOf r a = m := by simp [nodeOf, hm]
        have hfilter : A.filter (fun fd => decide (fd ∈ readfds.erase a)) =
            A.filter (fun fd => decide (fd ∈ readfds)) := by
          apply List.filter_congr
          intro b hb
          have : b ≠ a := fun h => haA (h ▸ hb)
          simp [Finset.mem_erase, this]
        have hih := ih (P ++ [a]) (readfds.erase a) (nsel - 1) (service a m s) hlist' hnd'
          hocc' (by omega)
        simp only [List.length_append, List.length_singleton] at hih
        obtain ⟨n, hn⟩ : ∃ n : Nat, nsel = (n : Int) + 1 := ⟨(nsel - 1).toNat, by omega⟩
        have hn1 : (nsel - 1).toNat = n := by omega
        have hn2 : nsel.toNat = n + 1 := by omega
        rw [hfilter, hn1] at hih
        simp only [List.length_cons, autofs_handle_fdset_loop, h0, if_false, hget,
          Option.bind_eq_bind, Option.some_bind, hin, not_true_eq_false, hm, hm0, hih]
        simp only [List.filter_cons, hin, decide_True, if_true, hn2, List.take_succ_cons,
          List.foldl_cons, List.length_cons, hnode, List.toFinset_cons]
        congr 2
        · ext x
          simp only [Finset.mem_sdiff, Finset.mem_erase, Finset.mem_insert]
          tauto
        · push_cast
          omega
      · have hih := ih (P ++ [a]) readfds nsel s hlist' hnd' hocc' hnsel
        simp only [List.length_append, List.length_singleton] at hih
        simp only [List.length_cons, autofs_handle_fdset_loop, h0, if_false, hget,
          Option.bind_eq_bind, Option.some_bind, hin, not_false_eq_true, if_true, hih]
        simp [List.filter_cons, hin]

/-- C9: for a count hint `nsel >= 0` and a registry in which the active list has
no duplicate, holds exactly the descriptors with a non-empty slot and lies within
the storage of `list`, `autofs_handle_fdset` returns `nsel - min(nsel, k)` with
`k` the number of active descriptors present in the set; it services, in
active-list order, exactly the first `min(nsel, k)` of them, each with the node
registered for it; the set it leaves is the original set without exactly those
descriptors, so every other member, in particular every descriptor that is not
active, is still a member. -/
theorem autofs_handle_fdset_spec {σ : Type} (service : Int → Nat → σ → σ) (r : Registry)
    (readfds : Finset Int) (nsel : Int) (s : σ)
    (hnsel : 0 ≤ nsel)
    (hmem : ∀ fd, fd ∈ active r ↔ occupied r fd)
    (hnd : (active r).Nodup)
    (hbound : r.numfds ≤ (r.list.length : Int)) :
    ∃ res, autofs_handle_fdset service r readfds nsel s = some res ∧
      res.nsel = nsel - min nsel ((readyFds r readfds).length : Int) ∧
      ((readyFds r readfds).take nsel.toNat).length =
        min nsel.toNat (readyFds r readfds).length ∧
      res.state =
        ((readyFds r readfds).take nsel.toNat).foldl
          (fun s fd => service fd (nodeOf r fd) s) s ∧
      res.readfds = readfds \ ((readyFds r readfds).take nsel.toNat).toFinset ∧
      (∀ fd ∈ readfds, fd ∉ (readyFds r readfds).take nsel.toNat → fd ∈ res.readfds) ∧
      (∀ fd ∈ readfds, fd ∉ active r → fd ∈ res.readfds) := by
  have hlen : (active r).length = r.numfds.toNat := by
    unfold active
    rw [List.length_take]
    omega
  have hlist : r.list = [] ++ active r ++ r.list.drop r.numfds.toNat := by
    unfold active
    simp
  have h := fdset_loop_spec service r (r.list.drop r.numfds.toNat) (active r) [] readfds nsel s
    hlist hnd (fun a ha => (hmem a).1 ha) hnsel
  rw [hlen] at h
  refine ⟨_, h, ?_, ?_, rfl, rfl, ?_, ?_⟩
  · show nsel - _ = _
    unfold readyFds
    rw [List.length_take]
    omega
  · rw [List.length_take]
  · intro fd hfd hns
    show fd ∈ readfds \ _
    unfold readyFds at hns
    simp only [Finset.mem_sdiff, List.mem_toFinset]
    exact ⟨hfd, hns⟩
  · intro fd hfd hna
    show fd ∈ readfds \ _
    simp only [Finset.mem_sdiff, List.mem_toFinset]
    refine ⟨hfd, ?_⟩
    intro hin
    have h1 := List.mem_of_mem_take hin
    exact hna (List.mem_of_mem_filter h1)

/-- C9 at the registry holding descriptors 3 and 5, the set `{3, 5, 9}` and count
hint 1: descriptor 3 is serviced, 5 and 9 stay in the set, 0 is returned. -/
theorem autofs_handle_fdset_spec_witness :
    autofs_handle_fdset recordService regTwo {3, 5, 9} 1 [] =
        some { readfds := {5, 9}, nsel := 0, state := [(3, 1)] } ∧
      ∃ res, autofs_handle_fdset recordService regTwo {3, 5, 9} 1 [] = some res ∧
        res.nsel = 1 - min 1 ((readyFds regTwo {3, 5, 9}).length : Int) ∧
        ((readyFds regTwo {3, 5, 9}).take (1 : Int).toNat).length =
          min (1 : Int).toNat (readyFds regTwo {3, 5, 9}).length ∧
        res.state =
          ((readyFds regTwo {3, 5, 9}).take (1 : Int).toNat).foldl
            (fun s fd => recordService fd (nodeOf regTwo fd) s) [] ∧
        res.readfds = {3, 5, 9} \ ((readyFds regTwo {3, 5, 9}).take (1 : Int).toNat).toFinset ∧
        (∀ fd ∈ ({3, 5, 9} : Finset Int),
          fd ∉ (readyFds regTwo {3, 5, 9}).take (1 : Int).toNat → fd ∈ res.readfds) ∧
        (∀ fd ∈ ({3, 5, 9} : Finset Int), fd ∉ active regTwo → fd ∈ res.readfds) :=
  ⟨by decide,
    autofs_handle_fdset_spec recordService regTwo {3, 5, 9} 1 [] (by decide)
      (regInv_of_reachable _ _ reachable_regTwo).mem_iff (by decide) (by decide)⟩

/-! ### Behaviour of the ledger -/

theorem unlink_name_sublist (n : String) (l : List autofs_pending_mount) :
    ∀ p rest, unlink_name n l = some (p, rest) → rest.Sublist l := by
  induction l with
  | nil => intro p rest h; simp [unlink_name] at h
  | cons q l ih =>
    intro p rest h
    by_cases hq : q.name = n
    · simp only [unlink_name, hq, if_true, Option.some.injEq, Prod.mk.injEq] at h
      rw [← h.2]
      exact List.sublist_cons_self q l
    · simp only [unlink_name, hq, if_false, Option.map_eq_some'] at h
      obtain ⟨⟨p', rest'⟩, h1, h2⟩ := h
      simp only [Prod.mk.injEq] at h2
      rw [← h2.2]
      exact List.Sublist.cons₂ q (ih p' rest' h1)

theorem unlink_name_split (n : String) (l : List autofs_pending_mount)
    (h : ∃ p ∈ l, p.name = n) :
    ∃ Q t R, l = Q ++ { wait_queue_token := t, name := n } :: R ∧ ∀ q ∈ Q, q.name ≠ n := by
  induction l with
  | nil => obtain ⟨p, hp, _⟩ := h; simp at hp
  | cons q l ih =>
    by_cases hq : q.name = n
    · refine ⟨[], q.wait_queue_token, l, ?_, by simp⟩
      cases q
      simp only at hq
      subst hq
      rfl
    · have h' : ∃ p ∈ l, p.name = n := by
        obtain ⟨p, hp, hpn⟩ := h
        rcases List.mem_cons.1 hp with rfl | hp'
        · exact absurd hpn hq
        · exact ⟨p, hp', hpn⟩
      obtain ⟨Q, t, R, hl, hQ⟩ := ih h'
      refine ⟨q :: Q, t, R, by simp [hl], ?_⟩
      intro x hx
      rcases List.mem_cons.1 hx with rfl | hx'
      · exact hq
      · exact hQ x hx'

theorem tokens_nodup_of_unlink (n : String) (l : List autofs_pending_mount)
    (hl : (tokens l).Nodup) :
    ∀ p rest, unlink_name n l = some (p, rest) → (tokens rest).Nodup := by
  intro p rest h
  exact List.Nodup.sublist ((unlink_name_sublist n l p rest h).map _) hl

theorem ledger_step_nodup (st : LedgerStep) (w : World)
    (hw : (tokens w.fh.pending).Nodup) : (tokens (st.apply w).fh.pending).Nodup := by
  cases st with
  | missing ops pkt =>
    show (tokens (autofs_handle_missing ops pkt w).fh.pending).Nodup
    cases hf : find_token pkt.wait_queue_token w.fh.pending with
    | some q =>
      have hd : autofs_handle_missing ops pkt w = { w with d_drops := int_incr w.d_drops } := by
        simp only [autofs_handle_missing, hf]
      rw [hd]; exact hw
    | none =>
      by_cases hfail : inline_failed ops pkt.name
      · rw [(handle_missing_failed ops pkt w hf hfail).1]; exact hw
      · rw [(handle_missing_kept ops pkt w hf hfail).1]
        show (tokens (_ :: w.fh.pending)).Nodup
        simp only [tokens, List.map_cons, List.nodup_cons]
        refine ⟨?_, hw⟩
        intro hmem
        obtain ⟨p, hp, hpt⟩ := List.mem_map.1 hmem
        exact (find_token_eq_none_iff _ _).1 hf p hp hpt
  | mount_succeeded mp =>
    show (tokens (autofs_mount_succeeded mp w).fh.pending).Nodup
    unfold autofs_mount_succeeded
    cases hu : unlink_name mp.am_name w.fh.pending with
    | none => exact hw
    | some q =>
      obtain ⟨p, rest⟩ := q
      exact tokens_nodup_of_unlink _ _ hw p rest hu
  | mount_failed mp =>
    show (tokens (autofs_mount_failed mp w).fh.pending).Nodup
    unfold autofs_mount_failed
    cases hu : unlink_name mp.am_name w.fh.pending with
    | none => exact hw
    | some q =>
      obtain ⟨p, rest⟩ := q
      exact tokens_nodup_of_unlink _ _ hw p rest hu
  | lookup_failed name =>
    show (tokens (autofs_lookup_failed name w).fh.pending).Nodup
    unfold autofs_lookup_failed
    cases hu : unlink_name name w.fh.pending with
    | none => exact hw
    | some q =>
      obtain ⟨p, rest⟩ := q
      exact tokens_nodup_of_unlink _ _ hw p rest hu

theorem runLedger_nodup (steps : List LedgerStep) :
    ∀ w : World, (tokens w.fh.pending).Nodup → (tokens (runLedger steps w).fh.pending).Nodup := by
  induction steps with
  | nil => intro w hw; exact hw
  | cons st steps ih =>
    intro w hw
    exact ih (st.apply w) (ledger_step_nodup st w hw)

theorem autofs_get_fh_pending (pipe : Option (Int × Int)) (version : Int) (mp : Nat)
    (r r' : Registry) (fh : autofs_fh_t)
    (h : autofs_get_fh pipe version mp r = some (some fh, r')) : fh.pending = [] := by
  unfold autofs_get_fh at h
  cases pipe with
  | none => simp at h
  | some fds =>
    simp only at h
    split at h
    · simp at h
    · simp only [Option.map_eq_some', Prod.mk.injEq, Option.some.injEq] at h
      obtain ⟨_, _, h2, _⟩ := h
      rw [← h2]

/-- C18: `autofs_mount_succeeded` and `autofs_mount_failed` for a node named `n`
change nothing and make no call when no ledger entry is named `n`; otherwise the
ledger splits as `Q ++ (t, n) :: R` with no entry of `Q` named `n`, and each of
them removes exactly that first entry, leaving `Q ++ R` (all other entries, also
later ones named `n`, in the same order), and sends its control command with the
token `t` of that entry: `READY(t)` alone for success, `rmdirs` on the path of the
node followed by `FAIL(t)` for failure. -/
theorem mount_callbacks_first_named (mp : am_node) (w : World) :
    ((∀ p ∈ w.fh.pending, p.name ≠ mp.am_name) →
        autofs_mount_succeeded mp w = w ∧ autofs_mount_failed mp w = w) ∧
      ((∃ p ∈ w.fh.pending, p.name = mp.am_name) →
        ∃ Q t R,
          w.fh.pending = Q ++ { wait_queue_token := t, name := mp.am_name } :: R ∧
          (∀ q ∈ Q, q.name ≠ mp.am_name) ∧
          (autofs_mount_succeeded mp w).fh.pending = Q ++ R ∧
          (autofs_mount_succeeded mp w).trace =
            w.trace ++ [Event.ioctl w.fh.ioctlfd .AUTOFS_IOC_READY t] ∧
          (autofs_mount_failed mp w).fh.pending = Q ++ R ∧
          (autofs_mount_failed mp w).trace =
            w.trace ++
              [Event.rmdirs mp.am_path, Event.ioctl w.fh.ioctlfd .AUTOFS_IOC_FAIL t]) := by
  constructor
  · intro h
    have hu := unlink_name_absent mp.am_name w.fh.pending h
    constructor
    · simp only [autofs_mount_succeeded, hu]
    · simp only [autofs_mount_failed, hu]
  · intro h
    obtain ⟨Q, t, R, hl, hQ⟩ := unlink_name_split mp.am_name w.fh.pending h
    have hu := unlink_name_append mp.am_name t Q R hQ
    refine ⟨Q, t, R, hl, hQ, ?_, ?_, ?_, ?_⟩
    · simp only [autofs_mount_succeeded, hl, hu]
    · simp only [autofs_mount_succeeded, hl, hu]
    · simp only [autofs_mount_failed, hl, hu]
    · simp only [autofs_mount_failed, hl, hu]

/-- C18 on the ledger `[(8, "proj"), (5, "x"), (9, "proj")]`: both callbacks for
`"proj"` remove the entry with token 8 only, and both are no-ops for `"home"`. -/
theorem mount_callbacks_first_named_witness :
    (autofs_mount_succeeded ⟨"proj", "/a/proj"⟩
        (handle_missing_seq [(opsInProgress, ⟨9, "proj"⟩), (opsInProgress, ⟨5, "x"⟩),
          (opsInProgress, ⟨8, "proj"⟩)] world0)).fh.pending = [⟨5, "x"⟩, ⟨9, "proj"⟩] ∧
      (autofs_mount_failed ⟨"home", "/a/home"⟩
        (handle_missing_seq [(opsInProgress, ⟨9, "proj"⟩), (opsInProgress, ⟨5, "x"⟩),
          (opsInProgress, ⟨8, "proj"⟩)] world0)) =
        handle_missing_seq [(opsInProgress, ⟨9, "proj"⟩), (opsInProgress, ⟨5, "x"⟩),
          (opsInProgress, ⟨8, "proj"⟩)] world0 :=
  ⟨by decide,
    ((mount_callbacks_first_named ⟨"home", "/a/home"⟩
      (handle_missing_seq [(opsInProgress, ⟨9, "proj"⟩), (opsInProgress, ⟨5, "x"⟩),
        (opsInProgress, ⟨8, "proj"⟩)] world0)).1 (by decide)).2⟩

/-- C19: starting from the handle `autofs_get_fh` returns, whose ledger is empty,
after any sequence of `autofs_handle_missing` (any token, name and node-tree
answers), `autofs_mount_succeeded`, `autofs_mount_failed` and
`autofs_lookup_failed` calls no two entries of the ledger carry the same wait
token. -/
theorem ledger_tokens_nodup (pipe : Option (Int × Int)) (version : Int) (mp : Nat)
    (r r' : Registry) (fh : autofs_fh_t)
    (hget : autofs_get_fh pipe version mp r = some (some fh, r'))
    (w : World) (hw : w.fh = fh) (steps : List LedgerStep) :
    (tokens (runLedger steps w).fh.pending).Nodup := by
  apply runLedger_nodup
  rw [hw, autofs_get_fh_pending pipe version mp r r' fh hget]
  exact List.nodup_nil

/-- C19 on the handle got for the pipe `(4, 5)` after five calls. -/
theorem ledger_tokens_nodup_witness :
    autofs_get_fh (some (4, 5)) 0 1 (hash_init (some 8)) =
        some (some worldFresh.fh, regFour) ∧
      (runLedger [.missing opsInProgress ⟨3, "x"⟩, .missing opsInProgress ⟨4, "x"⟩,
          .missing opsInProgress ⟨3, "y"⟩, .mount_failed ⟨"x", "/a/x"⟩,
          .lookup_failed "y"] worldFresh).fh.pending = [⟨3, "x"⟩] ∧
      (tokens (runLedger [.missing opsInProgress ⟨3, "x"⟩, .missing opsInProgress ⟨4, "x"⟩,
          .missing opsInProgress ⟨3, "y"⟩, .mount_failed ⟨"x", "/a/x"⟩,
          .lookup_failed "y"] worldFresh).fh.pending).Nodup :=
  ⟨by decide, by decide,
    ledger_tokens_nodup (some (4, 5)) 0 1 (hash_init (some 8)) regFour worldFresh.fh
      (by decide)
      worldFresh rfl _⟩

/-! ### Handle lifecycle -/

/-- C13, as stated, fails: when the protocol-version command succeeds and the
kernel reports 5, `autofs_mounted` leaves `version = 5`, outside `[3,4]`; when it
reports 2 it leaves `version = 2`. -/
theorem autofs_mounted_version_counterexample :
    (autofs_mounted "/a" 6 (some 5) worldFresh.fh ⟨true, true⟩).fh.version = 5 ∧
      ¬ (3 ≤ (autofs_mounted "/a" 6 (some 5) worldFresh.fh ⟨true, true⟩).fh.version ∧
          (autofs_mounted "/a" 6 (some 5) worldFresh.fh ⟨true, true⟩).fh.version ≤ 4) ∧
      (autofs_mounted "/a" 6 (some 2) worldFresh.fh ⟨true, true⟩).fh.version = 2 := by
  decide

/-- C13, amended: after `autofs_mounted`, the version of the handle is
`AUTOFS_MIN_VERSION = 3` when the protocol-version command fails and is the
integer the kernel reported when the command succeeds; it lies in `[3,4]` exactly
when the command failed or the reported integer lies in `[3,4]`. -/
theorem autofs_mounted_version (mf_mount : String) (opened : Int) (protover : Option Int)
    (fh : autofs_fh_t) (flags : amfs_host_flags) :
    (protover = none →
        (autofs_mounted mf_mount opened protover fh flags).fh.version = 3) ∧
      (∀ v, protover = some v →
        (autofs_mounted mf_mount opened protover fh flags).fh.version = v) ∧
      ((3 ≤ (autofs_mounted mf_mount opened protover fh flags).fh.version ∧
          (autofs_mounted mf_mount opened protover fh flags).fh.version ≤ 4) ↔
        ∀ v, protover = some v → 3 ≤ v ∧ v ≤ 4) := by
  cases protover with
  | none =>
    refine ⟨fun _ => rfl, fun v h => by simp at h, ?_⟩
    simp [autofs_mounted, AUTOFS_MIN_VERSION]
  | some v =>
    refine ⟨fun h => by simp at h, fun v' h => ?_, ?_⟩
    · simp only [Option.some.injEq] at h
      subst h
      rfl
    · simp [autofs_mounted]

/-- C13, amended, at a failed command and at a kernel reporting 4. -/
theorem autofs_mounted_version_witness :
    (autofs_mounted "/a" (-1) none worldFresh.fh ⟨true, true⟩).fh.version = 3 ∧
      (autofs_mounted "/a" 6 (some 4) worldFresh.fh ⟨true, true⟩).fh.version = 4 :=
  ⟨(autofs_mounted_version "/a" (-1) none worldFresh.fh ⟨true, true⟩).1 rfl,
    (autofs_mounted_version "/a" 6 (some 4) worldFresh.fh ⟨true, true⟩).2.1 4 rfl⟩

theorem reachable_regFour : Reachable (some 8) regFour :=
  Reachable.step (RegOp.insert 4 1) Reachable.init (by decide) (by decide)

/-- C12 fails on the code: for the descriptor number equal to the ceiling,
`fds[0] == autofs_max_fds`, the sanity check `fds[0] > autofs_max_fds` does not
refuse, and `hash_insert` then indexes slot `autofs_max_fds` of a storage of
`autofs_max_fds` slots; with a soft limit of 4096 the ceiling is 1024 and the
descriptor 1024 is not refused, while 1025 is. -/
theorem autofs_get_fh_ceiling_not_refused :
    (∀ (getrlimit : Option Nat) (kernelfd version : Int) (mp : Nat),
        ((hash_init getrlimit).hash.length : Int) = (hash_init getrlimit).autofs_max_fds ∧
        autofs_get_fh (some ((hash_init getrlimit).autofs_max_fds, kernelfd)) version mp
            (hash_init getrlimit) = none ∧
        autofs_get_fh (some ((hash_init getrlimit).autofs_max_fds, kernelfd)) version mp
            (hash_init getrlimit) ≠ some (none, hash_init getrlimit)) ∧
      (hash_init (some 4096)).autofs_max_fds = 1024 ∧
      autofs_get_fh (some (1025, 1026)) 0 1 (hash_init (some 4096)) =
        some (none, hash_init (some 4096)) := by
  refine ⟨?_, by decide, ?_⟩
  · intro getrlimit kernelfd version mp
    have hlen : ((hash_init getrlimit).hash.length : Int) =
        (hash_init getrlimit).autofs_max_fds := (regInv_hash_init getrlimit).hash_len
    have hget : aget (hash_init getrlimit).hash (hash_init getrlimit).autofs_max_fds = none := by
      rw [← hlen, aget_natCast]
      simp
    have hins : ∀ m, hash_insert (hash_init getrlimit).autofs_max_fds m (hash_init getrlimit) =
        none := by
      intro m
      simp [hash_insert, hget]
    have hres : autofs_get_fh (some ((hash_init getrlimit).autofs_max_fds, kernelfd)) version mp
        (hash_init getrlimit) = none := by
      simp [autofs_get_fh, hins]
    exact ⟨hlen, hres, by rw [hres]; simp⟩
  · have h : (hash_init (some 4096)).autofs_max_fds = 1024 := by decide
    simp [autofs_get_fh, h]

/-- C14, as stated, fails: `autofs_release_fh` applied again to a handle it was
applied to, whose fields it never resets, makes the same calls again, so
descriptors 6 and 4 are closed twice; and for a handle whose kernel-read
descriptor is already `-1` it calls `hash_delete(-1)`, which indexes `hash[-1]`
outside the storage. -/
theorem autofs_release_fh_counterexample :
    autofs_release_fh (some world0.fh) regFour =
        some (regFourGone,
          [Event.ioctl 6 .AUTOFS_IOC_CATATONIC 0, Event.close 6, Event.close 4]) ∧
      autofs_release_fh (some world0.fh) regFourGone =
        some (regFourGoneTwice,
          [Event.ioctl 6 .AUTOFS_IOC_CATATONIC 0, Event.close 6, Event.close 4]) ∧
      List.count (Event.close 4)
        ([Event.ioctl 6 .AUTOFS_IOC_CATATONIC 0, Event.close 6, Event.close 4] ++
          [Event.ioctl 6 .AUTOFS_IOC_CATATONIC 0, Event.close 6, Event.close 4]) = 2 ∧
      autofs_release_fh (some fhNoRead) regFour = none := by
  decide

/-- C14, amended: for every handle whose kernel-read descriptor is registered in a
registry satisfying the invariant and whose valid descriptors are pairwise
distinct, with `kernelfd` and `ioctlfd` each valid or already `-1`, one call of
`autofs_release_fh` unregisters `fd`, closes `kernelfd` if valid, then sends the
catatonic command on `ioctlfd` and closes it if valid, then closes `fd`: every
valid descriptor is closed exactly once, no invalid one is closed, and the
catatonic command is sent iff `ioctlfd` is valid, right before its close. -/
theorem autofs_release_fh_closes (fh : autofs_fh_t) (r : Registry)
    (hI : RegInv r) (ho : occupied r fh.fd)
    (hk : 0 ≤ fh.kernelfd → fh.kernelfd ≠ fh.ioctlfd ∧ fh.kernelfd ≠ fh.fd)
    (hi : 0 ≤ fh.ioctlfd → fh.ioctlfd ≠ fh.fd) :
    ∃ r' trace, autofs_release_fh (some fh) r = some (r', trace) ∧
      hash_delete fh.fd r = some r' ∧
      trace =
        (if 0 ≤ fh.kernelfd then [Event.close fh.kernelfd] else []) ++
        (if 0 ≤ fh.ioctlfd then
          [Event.ioctl fh.ioctlfd .AUTOFS_IOC_CATATONIC 0, Event.close fh.ioctlfd]
         else []) ++
        [Event.close fh.fd] ∧
      (∀ x, Event.close x ∈ trace ↔
        (0 ≤ x ∧ (x = fh.kernelfd ∨ x = fh.ioctlfd ∨ x = fh.fd))) ∧
      (∀ x, List.count (Event.close x) trace ≤ 1) ∧
      (Event.ioctl fh.ioctlfd .AUTOFS_IOC_CATATONIC 0 ∈ trace ↔ 0 ≤ fh.ioctlfd) := by
  obtain ⟨m, hm, _⟩ := (occupied_iff r fh.fd).1 ho
  have hfd : 0 ≤ fh.fd := ((aget_eq_some _ _ _).1 hm).1
  obtain ⟨r', hdel, _⟩ := hash_delete_spec r fh.fd hI ho
  refine ⟨r', _, ?_, hdel, rfl, ?_, ?_, ?_⟩
  · simp [autofs_release_fh, hdel, hfd]
  · intro x
    by_cases h1 : 0 ≤ fh.kernelfd <;> by_cases h2 : 0 ≤ fh.ioctlfd <;>
      simp [h1, h2] <;> omega
  · intro x
    by_cases h1 : 0 ≤ fh.kernelfd <;> by_cases h2 : 0 ≤ fh.ioctlfd <;>
      simp [h1, h2, List.count_cons] <;> split_ifs <;> omega
  · by_cases h1 : 0 ≤ fh.kernelfd <;> by_cases h2 : 0 ≤ fh.ioctlfd <;> simp [h1, h2]

/-- C14, amended, at the mounted handle with descriptors 4 (read), `-1` (write,
already closed) and 6 (control): catatonic on 6, close 6, close 4. -/
theorem autofs_release_fh_closes_witness :
    autofs_release_fh (some world0.fh) regFour =
        some (regFourGone,
          [Event.ioctl 6 .AUTOFS_IOC_CATATONIC 0, Event.close 6, Event.close 4]) ∧
      ∃ r' trace, autofs_release_fh (some world0.fh) regFour = some (r', trace) ∧
        (∀ x, List.count (Event.close x) trace ≤ 1) ∧
        (∀ x, Event.close x ∈ trace ↔
          (0 ≤ x ∧ (x = world0.fh.kernelfd ∨ x = world0.fh.ioctlfd ∨ x = world0.fh.fd))) :=
  ⟨by decide,
    match autofs_release_fh_closes world0.fh regFour
        (regInv_of_reachable _ _ reachable_regFour) (by decide) (by decide) (by decide) with
    | ⟨r', trace, h1, _, _, h4, h5, _⟩ => ⟨r', trace, h1, h5, h4⟩⟩

/-! ### Bind-or-symlink mount -/

theorem use_symlink_trace (env : LinkEnv) (am_path am_link : String) (err : Int)
    (trace : List Syscall) :
    ∃ rest, (use_symlink env am_path am_link err trace).2 = trace ++ rest ∧
      ∀ c ∈ rest, c = Syscall.symlink am_link am_path := by
  unfold use_symlink
  by_cases h1 : err ≠ 0
  · by_cases h2 : env.symlink ≠ 0
    · exact ⟨[Syscall.symlink am_link am_path], by simp [h1, h2], by simp⟩
    · exact ⟨[Syscall.symlink am_link am_path], by simp [h1, h2], by simp⟩
  · exact ⟨[], by simp [h1], by simp⟩

theorem bind_from_lstat_trace (env : LinkEnv) (am_path am_link : String)
    (trace : List Syscall) :
    ∃ rest, (bind_from_lstat env am_path am_link trace).2 = trace ++ rest ∧
      ∀ c ∈ rest, c.isPgrp = false ∧ ∀ path, c ≠ Syscall.stat path := by
  have key : ∀ (err : Int) (mid : List Syscall),
      (∀ c ∈ mid, c.isPgrp = false ∧ ∀ path, c ≠ Syscall.stat path) →
      ∃ rest, (use_symlink env am_path am_link err (trace ++ mid)).2 = trace ++ rest ∧
        ∀ c ∈ rest, c.isPgrp = false ∧ ∀ path, c ≠ Syscall.stat path := by
    intro err mid hmid
    obtain ⟨rest, h1, h2⟩ := use_symlink_trace env am_path am_link err (trace ++ mid)
    refine ⟨mid ++ rest, by rw [h1, List.append_assoc], ?_⟩
    intro c hc
    rcases List.mem_append.1 hc with hc | hc
    · exact hmid c hc
    · rw [h2 c hc]
      exact ⟨rfl, fun path h => by cases h⟩
  unfold bind_from_lstat
  by_cases h1 : env.lstat ≠ 0
  · rw [if_pos h1]
    exact key _ [Syscall.lstat am_link] (by simp [Syscall.isPgrp])
  · rw [if_neg h1]
    by_cases h2 : env.is_lnk = true
    · rw [if_pos h2]
      exact key _ [Syscall.lstat am_link] (by simp [Syscall.isPgrp])
    · rw [if_neg h2]
      by_cases h3 : env.mount_fs ≠ 0
      · rw [if_pos h3, List.append_assoc, List.append_assoc]
        exact key _ ([Syscall.lstat am_link] ++
          ([Syscall.mkdirs am_path 0o555, Syscall.mount_fs am_path am_link] ++
            [Syscall.rmdir am_path])) (by simp [Syscall.isPgrp])
      · rw [if_neg h3, List.append_assoc]
        exact key _ ([Syscall.lstat am_link] ++
          [Syscall.mkdirs am_path 0o555, Syscall.mount_fs am_path am_link])
          (by simp [Syscall.isPgrp])

/-- C16, as stated, fails: with bind mounts supported, a run with
`foreground == 0` makes the calls `getpgrp`, `setpgrp`, `stat`, `setpgid` before
the `lstat`, and a run with `foreground == 1` makes none of them. -/
theorem autofs_link_mount_pgrp_counterexample :
    autofs_link_mount true true 0 envAllFine "/a/x" "/b/x" =
        (0, [Syscall.getpgrp, Syscall.setpgrp, Syscall.stat "/b/x", Syscall.setpgid 0 77,
             Syscall.lstat "/b/x", Syscall.mkdirs "/a/x" 0o555,
             Syscall.mount_fs "/a/x" "/b/x"]) ∧
      autofs_link_mount true true 1 envAllFine "/a/x" "/b/x" =
        (0, [Syscall.lstat "/b/x", Syscall.mkdirs "/a/x" 0o555,
             Syscall.mount_fs "/a/x" "/b/x"]) := by
  decide

/-- C16, amended: in `autofs_link_mount` with bind mounts supported, the
process-group step (`getpgrp`, `setpgrp`, `stat` of the target, `setpgid` back to
the saved group) is performed, once and before every other call, when
`foreground == 0`, and is skipped when `foreground` is non-zero: the calls of such
a run contain no `getpgrp`, `setpgrp`, `setpgid` and no `stat`. -/
theorem autofs_link_mount_pgrp (foreground : Int) (env : LinkEnv)
    (am_path am_link : String) :
    (foreground = 0 →
        ∃ rest, (autofs_link_mount true true foreground env am_path am_link).2 =
            [Syscall.getpgrp, Syscall.setpgrp, Syscall.stat am_link,
             Syscall.setpgid 0 env.getpgrp] ++ rest ∧
          ∀ c ∈ rest, c.isPgrp = false ∧ ∀ path, c ≠ Syscall.stat path) ∧
      (foreground ≠ 0 →
        ∀ c ∈ (autofs_link_mount true true foreground env am_path am_link).2,
          c.isPgrp = false ∧ ∀ path, c ≠ Syscall.stat path) := by
  constructor
  · intro hf
    subst hf
    simp only [autofs_link_mount, Bool.and_self, if_true]
    by_cases h1 : env.setpgid ≠ 0
    · exact ⟨[], by rw [if_pos h1]; simp, by simp⟩
    · rw [if_neg h1]
      by_cases h2 : env.stat ≠ 0
      · rw [if_pos h2]
        obtain ⟨rest, hr, hc⟩ := use_symlink_trace env am_path am_link env.stat
          [Syscall.getpgrp, Syscall.setpgrp, Syscall.stat am_link,
           Syscall.setpgid 0 env.getpgrp]
        refine ⟨rest, hr, ?_⟩
        intro c hcm
        rw [hc c hcm]
        exact ⟨rfl, fun path h => by cases h⟩
      · rw [if_neg h2]
        exact bind_from_lstat_trace env am_path am_link _
  · intro hf
    simp only [autofs_link_mount, Bool.and_self, if_true]
    rw [if_neg hf]
    obtain ⟨rest, hr, hc⟩ := bind_from_lstat_trace env am_path am_link []
    rw [hr]
    simpa using hc

/-- C16, amended, on a system where every call succeeds. -/
theorem autofs_link_mount_pgrp_witness :
    (∃ rest, (autofs_link_mount true true 0 envAllFine "/a/x" "/b/x").2 =
        [Syscall.getpgrp, Syscall.setpgrp, Syscall.stat "/b/x",
         Syscall.setpgid 0 envAllFine.getpgrp] ++ rest ∧
        ∀ c ∈ rest, c.isPgrp = false ∧ ∀ path, c ≠ Syscall.stat path) ∧
      ∀ c ∈ (autofs_link_mount true true 1 envAllFine "/a/x" "/b/x").2,
        c.isPgrp = false ∧ ∀ path, c ≠ Syscall.stat path :=
  ⟨(autofs_link_mount_pgrp 0 envAllFine "/a/x" "/b/x").1 rfl,
    (autofs_link_mount_pgrp 1 envAllFine "/a/x" "/b/x").2 (by decide)⟩

/-! ### Packet dispatch -/

theorem amd_put_world (a : Amd) (mp : Nat) : a.put mp (a.world mp) = a := by
  cases a
  simp [Amd.put, Amd.world]

theorem autofs_service_eq (env : DispatchEnv) (hsize : 0 < env.pktsize)
    (hread : ∀ fd k n, env.read fd k n ≤ n) (fd : Int) (mp : Nat) (a : Amd) :
    autofs_service env fd mp a =
      some (if fullMissing env a mp = true then
          a.put mp (autofs_handle_missing (env.ops mp) (env.packet (a.fhs mp).fd).missing
            (a.world mp))
        else a) := by
  obtain ⟨rem, tr, hrun, _⟩ :=
    autofs_get_pkt_loop_spec (env.read (a.fhs mp).fd) (hread (a.fhs mp).fd)
      env.pktsize.toNat 0 env.pktsize hsize (Nat.le_refl _)
  have hget : autofs_get_pkt (env.read (a.fhs mp).fd) env.pktsize env.pktsize.toNat =
      some (rem, tr) := hrun
  unfold autofs_service fullMissing
  simp only [hget]
  by_cases h0 : rem = 0
  · by_cases hm : (env.packet (a.fhs mp).fd).hdr_type = env.autofs_ptype_missing
    · simp [h0, hm]
    · by_cases he : (env.packet (a.fhs mp).fd).hdr_type = env.autofs_ptype_expire
      · have hm' : ¬ env.autofs_ptype_expire = env.autofs_ptype_missing := he ▸ hm
        simp [h0, he, hm', autofs_handle_expire, amd_put_world]
      · simp [h0, hm, he]
  · simp [h0]

theorem fdset_result {σ : Type} (service : Int → Nat → σ → σ) (r : Registry)
    (readfds : Finset Int) (nsel : Int) (s : σ)
    (hnsel : 0 ≤ nsel)
    (hmem : ∀ fd, fd ∈ active r ↔ occupied r fd)
    (hnd : (active r).Nodup)
    (hbound : r.numfds ≤ (r.list.length : Int)) :
    autofs_handle_fdset service r readfds nsel s =
      some
        { readfds := readfds \ ((readyFds r readfds).take nsel.toNat).toFinset
          nsel := nsel - (((readyFds r readfds).take nsel.toNat).length : Int)
          state :=
            ((readyFds r readfds).take nsel.toNat).foldl
              (fun s fd => service fd (nodeOf r fd) s) s } := by
  have hlen : (active r).length = r.numfds.toNat := by
    unfold active
    rw [List.length_take]
    omega
  have hlist : r.list = [] ++ active r ++ r.list.drop r.numfds.toNat := by
    unfold active
    simp
  have h := fdset_loop_spec service r (r.list.drop r.numfds.toNat) (active r) [] readfds nsel s
    hlist hnd (fun a ha => (hmem a).1 ha) hnsel
  rw [hlen] at h
  exact h

theorem foldl_service_dropped (env : DispatchEnv) (hsize : 0 < env.pktsize)
    (hread : ∀ fd k n, env.read fd k n ≤ n) (r : Registry) (a : Amd) (l : List Int)
    (hl : ∀ fd ∈ l, fullMissing env a (nodeOf r fd) = false) :
    l.foldl (fun (s : Option Amd) fd => s.bind (autofs_service env fd (nodeOf r fd)))
      (some a) = some a := by
  induction l with
  | nil => rfl
  | cons fd l ih =>
    have h1 : fullMissing env a (nodeOf r fd) = false := hl fd (by simp)
    have h2 := autofs_service_eq env hsize hread fd (nodeOf r fd) a
    simp only [h1, Bool.false_eq_true, if_false] at h2
    simp only [List.foldl_cons, Option.some_bind, h2]
    exact ih (fun x hx => hl x (by simp [hx]))

theorem foldl_service_some (env : DispatchEnv) (hsize : 0 < env.pktsize)
    (hread : ∀ fd k n, env.read fd k n ≤ n) (r : Registry) (l : List Int) :
    ∀ a : Amd, ∃ a', l.foldl
      (fun (s : Option Amd) fd => s.bind (autofs_service env fd (nodeOf r fd)))
      (some a) = some a' := by
  induction l with
  | nil => intro a; exact ⟨a, rfl⟩
  | cons fd l ih =>
    intro a
    have h2 := autofs_service_eq env hsize hread fd (nodeOf r fd) a
    simp only [List.foldl_cons, Option.some_bind, h2]
    exact ih _

/-- C11: with a packet size above zero and `read` never returning more than
requested, the body run for a serviced descriptor returns, and it runs
`autofs_handle_missing` on the handle of the node iff a complete packet was read
and its type tag is `autofs_ptype_missing`; after a short or failed read, an
expire packet or a packet of any other type the whole state is as before: no
control command or other call, every ledger and counter unchanged (the registry
is not in reach of the body). Whatever the packets are, the run of
`autofs_handle_fdset` clears every serviced descriptor from the set and counts it
against `nsel`; when no serviced descriptor delivers a complete missing packet it
leaves the state unchanged. -/
theorem autofs_service_spec (env : DispatchEnv) (hsize : 0 < env.pktsize)
    (hread : ∀ fd k n, env.read fd k n ≤ n) :
    (∀ (fd : Int) (mp : Nat) (a : Amd),
        (fullMissing env a mp = true →
          autofs_service env fd mp a =
            some (a.put mp (autofs_handle_missing (env.ops mp)
              (env.packet (a.fhs mp).fd).missing (a.world mp)))) ∧
        (fullMissing env a mp = false → autofs_service env fd mp a = some a)) ∧
      (∀ (a : Amd) (mp : Nat),
        fullMissing env a mp = true ↔
          ∃ tr, autofs_get_pkt (env.read (a.fhs mp).fd) env.pktsize env.pktsize.toNat =
              some (0, tr) ∧
            (env.packet (a.fhs mp).fd).hdr_type = env.autofs_ptype_missing) ∧
      (∀ (r : Registry) (readfds : Finset Int) (nsel : Int) (a : Amd),
        0 ≤ nsel → (∀ fd, fd ∈ active r ↔ occupied r fd) → (active r).Nodup →
        r.numfds ≤ (r.list.length : Int) →
        ∃ a', autofs_handle_fdset_pkts env r readfds nsel a =
            some
              { readfds := readfds \ ((readyFds r readfds).take nsel.toNat).toFinset
                nsel := nsel - (((readyFds r readfds).take nsel.toNat).length : Int)
                state := some a' } ∧
          ((∀ fd ∈ (readyFds r readfds).take nsel.toNat,
              fullMissing env a (nodeOf r fd) = false) → a' = a)) := by
  refine ⟨?_, ?_, ?_⟩
  · intro fd mp a
    have h := autofs_service_eq env hsize hread fd mp a
    constructor
    · intro hf
      rw [h, if_pos hf]
    · intro hf
      rw [h]
      simp [hf]
  · intro a mp
    unfold fullMissing
    cases hg : autofs_get_pkt (env.read (a.fhs mp).fd) env.pktsize env.pktsize.toNat with
    | none => simp
    | some q =>
      obtain ⟨rem, tr⟩ := q
      simp only [Bool.and_eq_true, decide_eq_true_eq, Option.some.injEq, Prod.mk.injEq]
      constructor
      · rintro ⟨h0, hm⟩
        exact ⟨tr, ⟨h0, rfl⟩, hm⟩
      · rintro ⟨tr', ⟨h0, _⟩, hm⟩
        exact ⟨h0, hm⟩
  · intro r readfds nsel a hnsel hmem hnd hbound
    obtain ⟨a', ha'⟩ :=
      foldl_service_some env hsize hread r ((readyFds r readfds).take nsel.toNat) a
    refine ⟨a', ?_, ?_⟩
    · unfold autofs_handle_fdset_pkts
      rw [fdset_result _ r readfds nsel (some a) hnsel hmem hnd hbound, ha']
    · intro hdrop
      have h := foldl_service_dropped env hsize hread r a _ hdrop
      rw [ha'] at h
      exact Option.some.inj h

/-- C11 on the registry holding descriptors 3 and 5 with the set `{3, 5, 9}` and
count hint 2: descriptor 3 delivers a short read and descriptor 5 an expire
packet; both are cleared and counted, 9 stays, and the state is unchanged. -/
theorem autofs_service_spec_witness :
    fullMissing envShortAndExpire amdTwo 1 = false ∧
      fullMissing envShortAndExpire amdTwo 2 = false ∧
      autofs_handle_fdset_pkts envShortAndExpire regTwo {3, 5, 9} 2 amdTwo =
        some
          { readfds :=
              {3, 5, 9} \ ((readyFds regTwo {3, 5, 9}).take (2 : Int).toNat).toFinset
            nsel := 2 - (((readyFds regTwo {3, 5, 9}).take (2 : Int).toNat).length : Int)
            state := some amdTwo } ∧
      ({3, 5, 9} \ ((readyFds regTwo {3, 5, 9}).take (2 : Int).toNat).toFinset : Finset Int) =
        {9} ∧
      (2 - (((readyFds regTwo {3, 5, 9}).take (2 : Int).toNat).length : Int)) = 0 :=
  ⟨by decide, by decide,
    match (autofs_service_spec envShortAndExpire (by decide)
      (by
        intro fd k n
        by_cases hfd : fd = 3
        · by_cases hk : k = 0 <;> simp [envShortAndExpire, readFiveThenEof, hfd, hk]
        · simp [envShortAndExpire, hfd])).2.2 regTwo {3, 5, 9} 2 amdTwo (by decide)
      (regInv_of_reachable _ _ reachable_regTwo).mem_iff (by decide) (by decide) with
    | ⟨_, h1, h2⟩ => (h2 (by decide)) ▸ h1,
    by decide, by decide⟩

end AutofsLinux
